import Mathlib

/-!
Shallow embedding of the `lattice` generation pipeline
(packages/engine/src: plugin.ts, context.ts, renderer.ts, policy.ts,
config.ts) and proofs about it.

Modelling conventions:
* A JS object used as a map (a `FileMap`, a registry `Map`, the `edges`
  map of a dependency graph) is an insertion-ordered association list;
  property assignment on an existing key keeps the key's position
  (`setAssoc`), as in JS.
* A JS `Set` is an insertion-ordered duplicate-free list (`addSet`).
* A `Buffer` is modelled by the character sequence it decodes to
  (`Content := List Char`); the renderer only ever decodes buffers as
  UTF-8 text, normalizes them and re-encodes.
* SHA-256 digests are modelled by an injective stand-in: the digest of a
  byte sequence is the byte sequence itself (`computeSha256`,
  `computeConfigHash`).  All claims about hashes are claims about
  equality/inequality of digests, which the injective stand-in preserves.
* `String.prototype.localeCompare` (used by the code to sort plugins and
  paths) is modelled for ASCII strings by the default-locale (root/en)
  collation: a primary pass over case-folded code points followed by a
  tertiary pass that puts lowercase before uppercase.  JS's comparator-free
  `Array.prototype.sort` (used for dependency ids and `Object.keys`) is
  modelled by plain code-unit order, which is `String.le` on ASCII.
* A plugin's side-effecting `apply(ctx)` can change the context's file
  map only through `addFile` (context.ts exposes nothing else that
  writes); its observable effect on a given file map is therefore the
  ordered list of `addFile(path, content)` calls it performs, so `apply`
  is modelled as a function from the current file map to that list.
-/

namespace Lattice

/-- File content: the decoded character sequence of a `Buffer`. -/
abbrev Content := List Char

/-- A JS object keyed by path: insertion-ordered association list. -/
abbrev FileMap := List (String × Content)

/-- JS property read `obj[k]` on an object modelled as an association list. -/
def getAssoc {α : Type} : List (String × α) → String → Option α
  | [], _ => none
  | (k, v) :: rest, key => if k = key then some v else getAssoc rest key

/-- JS property write `obj[k] = v`: overwrites in place if the key exists
(keeping its insertion position), appends otherwise. -/
def setAssoc {α : Type} : List (String × α) → String → α → List (String × α)
  | [], key, v => [(key, v)]
  | (k, w) :: rest, key, v =>
    if k = key then (k, v) :: rest else (k, w) :: setAssoc rest key v

/-- JS `Set.prototype.add`: append unless already present. -/
def addSet (l : List String) (a : String) : List String :=
  if a ∈ l then l else l ++ [a]

/-- `new Set(array)`: deduplicate keeping first occurrences. -/
def dedupSet (l : List String) : List String :=
  l.foldl addSet []

/-- Case-fold an ASCII code point (model of the primary collation weight). -/
def foldCase (n : Nat) : Nat :=
  if 65 ≤ n ∧ n ≤ 90 then n + 32 else n

/-- Case flag of an ASCII code point (model of the tertiary collation weight:
lowercase characters sort before uppercase ones). -/
def upFlag (n : Nat) : Nat :=
  if 65 ≤ n ∧ n ≤ 90 then 1 else 0

/-- Lexicographic comparison of weight lists. -/
def lexCmpNat : List Nat → List Nat → Ordering
  | [], [] => .eq
  | [], _ :: _ => .lt
  | _ :: _, [] => .gt
  | a :: as, b :: bs =>
    if a < b then .lt else if b < a then .gt else lexCmpNat as bs

/-- Primary collation key of a string: its case-folded code points. -/
def primaryKey (s : String) : List Nat :=
  s.data.map (fun c => foldCase c.toNat)

/-- Tertiary collation key of a string: the case flags of its code points. -/
def caseKey (s : String) : List Nat :=
  s.data.map (fun c => upFlag c.toNat)

/-- Model of `a.localeCompare(b)` under Node's default locale, restricted to
ASCII: full primary pass (case-insensitive), then full tertiary pass
(lowercase before uppercase). -/
def localeCompare (a b : String) : Ordering :=
  (lexCmpNat (primaryKey a) (primaryKey b)).then
    (lexCmpNat (caseKey a) (caseKey b))

/-- The non-strict order induced by `localeCompare`, i.e. `a.localeCompare(b) <= 0`. -/
def locLe (a b : String) : Prop := localeCompare a b ≠ .gt

instance : DecidableRel locLe := fun a b =>
  inferInstanceAs (Decidable (localeCompare a b ≠ .gt))

/-- Plain code-unit comparison of strings (the order used by JS's
comparator-free `Array.prototype.sort`; on the ASCII strings occurring
here, UTF-16 code units coincide with code points). -/
def codeLe (a b : String) : Prop :=
  lexCmpNat (a.data.map Char.toNat) (b.data.map Char.toNat) ≠ .gt

instance : DecidableRel codeLe := fun _ _ =>
  inferInstanceAs (Decidable (lexCmpNat _ _ ≠ .gt))

/-- JS comparator-free `Array.prototype.sort` on strings (code-unit order). -/
def jsSortStrings (l : List String) : List String :=
  l.insertionSort codeLe

/-! ### Plugin data model (plugin.ts) -/

/-- Execution phase of a plugin (`PluginPhase` in plugin.ts). -/
inductive PluginPhase
  | pre
  | render
  | post
  | ci
deriving DecidableEq

/-- Conflict policy of a plugin (`ConflictPolicy` in plugin.ts). -/
inductive ConflictPolicy
  | error
  | lastWins
deriving DecidableEq

/-- `ConfigObj` is the runtime `ProjectConfig` object: a JS object whose
values (after zod validation) are enum strings.  It is kept as an
association list because `computeConfigHash` depends on key insertion
order being canonicalized away. -/
abbrev ConfigObj := List (String × String)

/-- A plugin (interface `Plugin` in plugin.ts).  `dependencies` absent is
modelled as `[]` (the code treats the two identically).  `apply` is the
ordered list of `addFile` calls performed on the given file map. -/
structure Plugin where
  id : String
  version : String
  dependencies : List String := []
  phase : Option PluginPhase := none
  conflictPolicy : Option ConflictPolicy := none
  appliesTo : ConfigObj → Bool
  apply : FileMap → List (String × Content)

/-- `a.id.localeCompare(b.id)` ordering used to sort plugin lists. -/
def pluginLe (a b : Plugin) : Prop := locLe a.id b.id

instance : DecidableRel pluginLe := fun a b =>
  inferInstanceAs (Decidable (locLe a.id b.id))

/-- Pair ordering by `localeCompare` on the path component, used by
`sortFileMap`. -/
def fileLe (a b : String × Content) : Prop := locLe a.1 b.1

instance : DecidableRel fileLe := fun a b =>
  inferInstanceAs (Decidable (locLe a.1 b.1))

/-- `InMemoryPluginRegistry`'s backing `Map<PluginId, Plugin>`. -/
abbrev Registry := List (String × Plugin)

namespace Registry

/-- `InMemoryPluginRegistry.get`. -/
def get (r : Registry) (id : String) : Option Plugin := getAssoc r id

/-- `InMemoryPluginRegistry.getAll`: values in insertion order. -/
def getAll (r : Registry) : List Plugin := r.map Prod.snd

/-- `InMemoryPluginRegistry.register`: throws on a duplicate id, otherwise
adds the plugin under its id. -/
def register (r : Registry) (p : Plugin) : Except String Registry :=
  if (getAssoc r p.id).isSome then
    .error ("Plugin " ++ p.id ++ " is already registered")
  else
    .ok (r ++ [(p.id, p)])

end Registry

/-! ### Dependency graph (plugin.ts, buildDependencyGraph / detectCycles) -/

/-- `DependencyGraph`: `nodes` is a `Set<PluginId>`, `edges` a
`Map<PluginId, Set<PluginId>>`. -/
structure DependencyGraph where
  nodes : List String
  edges : List (String × List String)
deriving DecidableEq

/-- `buildDependencyGraph(plugins)`: add each plugin's id to `nodes`; when a
plugin declares a non-empty dependency list, record the deduplicated set as
its edge set and add each dependency id to `nodes`. -/
def buildDependencyGraph (plugins : List Plugin) : DependencyGraph :=
  plugins.foldl
    (fun g p =>
      let g := { g with nodes := addSet g.nodes p.id }
      if p.dependencies.length > 0 then
        let g := { g with edges := setAssoc g.edges p.id (dedupSet p.dependencies) }
        { g with nodes := p.dependencies.foldl addSet g.nodes }
      else g)
    ⟨[], []⟩

/-- State threaded through `detectCycles`'s depth-first traversal. -/
structure DFSState where
  errors : List String
  visited : List String
  stack : List String
deriving DecidableEq

/-- The cycle message built when `node` is found on the recursion stack:
`path.slice(path.indexOf(node))` followed by `node`, joined with arrows. -/
def cycleMsg (path : List String) (node : String) : String :=
  let cycleStart := path.indexOf node
  "Dependency cycle detected: " ++
    String.intercalate " -> " (path.drop cycleStart ++ [node])

/-- The recursive `visit(node, path)` of `detectCycles`, with explicit fuel
(the JS recursion always terminates because the recursion stack grows on
every nested call; `detectCycles` passes fuel exceeding the recursion
depth). Dependency sets are iterated in their insertion order, exactly as
`for (const dep of deps)` does. -/
def detectVisit (g : DependencyGraph) : Nat → String → List String → DFSState → DFSState
  | 0, _, _, st => st
  | fuel + 1, node, path, st =>
    if node ∈ st.stack then
      { st with errors := st.errors ++ [cycleMsg path node] }
    else if node ∈ st.visited then st
    else
      let st1 : DFSState :=
        { st with visited := st.visited ++ [node], stack := st.stack ++ [node] }
      let st2 :=
        match getAssoc g.edges node with
        | none => st1
        | some deps => deps.foldl (fun s d => detectVisit g fuel d (path ++ [node]) s) st1
      { st2 with stack := st2.stack.erase node }

/-- Fuel bound that strictly dominates the depth of `detectVisit`'s
recursion (every id ever pushed on the recursion stack is a node or an
edge target, and the stack is duplicate-free). -/
def graphSize (g : DependencyGraph) : Nat :=
  g.nodes.length + g.edges.foldl (fun n e => n + e.2.length) 0 + 1

/-- `detectCycles(graph)`: visit every unvisited node in `nodes` insertion
order, collecting cycle messages. -/
def detectCycles (g : DependencyGraph) : List String :=
  (g.nodes.foldl
    (fun st n => if n ∈ st.visited then st else detectVisit g (graphSize g) n [] st)
    ⟨[], [], []⟩).errors

/-! ### Plugin order resolution (plugin.ts, resolvePluginOrder) -/

/-- Errors thrown by `resolvePluginOrder` (plus the fuel marker of the
embedding, proved unreachable under the hypotheses used here). -/
inductive OrderError
  | cycles (msgs : List String)
  | missingDeps (msgs : List String)
  | notFound (id : String)
  | fuelExhausted
deriving DecidableEq

/-- State of `resolvePluginOrder`'s depth-first visitation. -/
structure VisitState where
  sorted : List Plugin
  visited : List String
  visiting : List String

/-- The recursive `visit(pluginId)` of `resolvePluginOrder`: skip ids being
visited or already visited, look the plugin up, visit its dependencies in
ascending code-unit order, then append the plugin unless already present. -/
def visitOrder (registry : Registry) : Nat → String → VisitState → Except OrderError VisitState
  | 0, _, _ => .error .fuelExhausted
  | fuel + 1, pid, st =>
    if pid ∈ st.visiting then .ok st
    else if pid ∈ st.visited then .ok st
    else
      let st1 : VisitState := { st with visiting := st.visiting ++ [pid] }
      match Registry.get registry pid with
      | none => .error (.notFound pid)
      | some plugin => do
        let st2 ← (jsSortStrings plugin.dependencies).foldlM
          (fun s d => visitOrder registry fuel d s) st1
        let st3 : VisitState :=
          { st2 with visiting := st2.visiting.erase pid, visited := st2.visited ++ [pid] }
        if st3.sorted.any (fun q => q.id = pid) then .ok st3
        else .ok { st3 with sorted := st3.sorted ++ [plugin] }

/-- `resolvePluginOrder(plugins, registry)`: silently keep only candidates
whose id is registered, reject dependency cycles, reject dependencies
missing from the registry, then visit candidates in ascending
`localeCompare`-id order. -/
def resolvePluginOrder (plugins : List Plugin) (registry : Registry) :
    Except OrderError (List Plugin) :=
  let applicable := plugins.filter (fun p => (Registry.get registry p.id).isSome)
  let cycleErrors := detectCycles (buildDependencyGraph applicable)
  if cycleErrors ≠ [] then .error (.cycles cycleErrors)
  else
    let missing := applicable.foldl
      (fun acc p =>
        acc ++ p.dependencies.filterMap
          (fun d =>
            if (Registry.get registry d).isNone then
              some ("Plugin " ++ p.id ++ " depends on unknown plugin: " ++ d)
            else none))
      []
    if missing ≠ [] then .error (.missingDeps missing)
    else do
      let sortedPlugins := applicable.insertionSort pluginLe
      let st ← sortedPlugins.foldlM
        (fun s p => visitOrder registry (registry.length + 1) p.id s)
        (⟨[], [], []⟩ : VisitState)
      return st.sorted

/-- `groupPluginsByPhase(plugins)` viewed at one phase: the plugins whose
declared phase (default `render`) matches, sorted by `localeCompare` id. -/
def groupPluginsByPhase (plugins : List Plugin) (phase : PluginPhase) : List Plugin :=
  (plugins.filter (fun p => p.phase.getD .render = phase)).insertionSort pluginLe

/-- A plugin list is topologically ordered when every dependency of every
element names some earlier element. -/
def TopoOK (l : List Plugin) : Prop :=
  ∀ i, (hi : i < l.length) → ∀ d ∈ l[i].dependencies,
    ∃ j, ∃ hj : j < l.length, j < i ∧ (l[j]).id = d

/-- Number of registered ids not currently being visited (the fuel measure
of `visitOrder`'s recursion). -/
def regCount (registry : Registry) (visiting : List String) : Nat :=
  ((registry.map Prod.fst).filter (fun k => decide (k ∉ visiting))).length

/-- A registry as built by `register`, whose dependency graph admits a
strict ranking (is acyclic) and whose dependencies are all registered:
every entry is keyed by its plugin's id, every dependency of a registered
plugin is registered, and every dependency edge strictly decreases the
rank. -/
def WellFormedRegistry (registry : Registry) (rank : String → Nat) : Prop :=
  (∀ e ∈ registry, e.2.id = e.1) ∧
  (∀ e ∈ registry, ∀ d ∈ e.2.dependencies, (Registry.get registry d).isSome) ∧
  (∀ e ∈ registry, ∀ d ∈ e.2.dependencies, rank d < rank e.1)

instance (registry : Registry) (rank : String → Nat) :
    Decidable (WellFormedRegistry registry rank) :=
  inferInstanceAs (Decidable (_ ∧ _ ∧ _))

/-! ### Policy (policy.ts) -/

/-- `Policy.runtimeSafety`. -/
structure RuntimeSafety where
  boundaryValidationRequired : Bool
deriving DecidableEq

/-- `Policy.process`. -/
structure ProcessFlags where
  codeownersRequired : Bool
  auditTrailRequired : Bool
deriving DecidableEq

/-- `Policy.versionPosture`. -/
inductive VersionPosture
  | latestMajor
  | pinnedMinor
  | pinnedExact
deriving DecidableEq

/-- Effective policy (`Policy` in policy.ts). -/
structure Policy where
  version : String
  requiredChecks : List String
  versionPosture : VersionPosture
  runtimeSafety : RuntimeSafety
  process : ProcessFlags
deriving DecidableEq

/-- A (possibly absent-field) overlay on `Policy.runtimeSafety`; the JS
spread `{...base.runtimeSafety, ...(preset?.runtimeSafety || {})}` merges
field by field, so absent nested fields must be representable. -/
structure RuntimeSafetyOverlay where
  boundaryValidationRequired : Option Bool := none

/-- Overlay on `Policy.process`. -/
structure ProcessOverlay where
  codeownersRequired : Option Bool := none
  auditTrailRequired : Option Bool := none

/-- `Partial<Policy>`: the shape of one entry of `PRESET_POLICIES`. -/
structure PolicyOverlay where
  version : Option String := none
  requiredChecks : Option (List String) := none
  versionPosture : Option VersionPosture := none
  runtimeSafety : Option RuntimeSafetyOverlay := none
  process : Option ProcessOverlay := none

/-- `BASE_POLICY` of policy.ts. -/
def BASE_POLICY : Policy :=
  { version := "1.0.0"
    requiredChecks := []
    versionPosture := .latestMajor
    runtimeSafety := { boundaryValidationRequired := false }
    process := { codeownersRequired := false, auditTrailRequired := false } }

/-- `StrictnessPreset`. -/
inductive StrictnessPreset
  | startup
  | pro
  | enterprise
deriving DecidableEq

/-- `PRESET_POLICIES` of policy.ts. -/
def PRESET_POLICIES : StrictnessPreset → PolicyOverlay
  | .startup =>
    { requiredChecks := some ["lint", "typecheck"]
      versionPosture := some .latestMajor
      runtimeSafety := some { boundaryValidationRequired := some false } }
  | .pro =>
    { requiredChecks := some ["lint", "typecheck", "test", "build"]
      versionPosture := some .pinnedMinor
      runtimeSafety := some { boundaryValidationRequired := some true } }
  | .enterprise =>
    { requiredChecks := some ["lint", "typecheck", "test", "build", "e2e", "security", "audit"]
      versionPosture := some .pinnedExact
      runtimeSafety := some { boundaryValidationRequired := some true }
      process := some { codeownersRequired := some true, auditTrailRequired := some true } }

/-- `{...base.runtimeSafety, ...(preset?.runtimeSafety || {})}`. -/
def mergeRuntimeSafety (base : RuntimeSafety) (o : Option RuntimeSafetyOverlay) : RuntimeSafety :=
  { boundaryValidationRequired :=
      ((o.getD {}).boundaryValidationRequired).getD base.boundaryValidationRequired }

/-- `{...base.process, ...(preset?.process || {})}`. -/
def mergeProcess (base : ProcessFlags) (o : Option ProcessOverlay) : ProcessFlags :=
  { codeownersRequired := ((o.getD {}).codeownersRequired).getD base.codeownersRequired
    auditTrailRequired := ((o.getD {}).auditTrailRequired).getD base.auditTrailRequired }

/-- The object literal returned by `resolvePolicy`: base spread, preset
spread, then the two explicit nested merges. -/
def applyOverlay (base : Policy) (o : PolicyOverlay) : Policy :=
  { version := o.version.getD base.version
    requiredChecks := o.requiredChecks.getD base.requiredChecks
    versionPosture := o.versionPosture.getD base.versionPosture
    runtimeSafety := mergeRuntimeSafety base.runtimeSafety o.runtimeSafety
    process := mergeProcess base.process o.process }

/-- `resolvePolicy(config)`: the source reads only `config.strictnessPreset`,
so the embedding takes the preset directly. -/
def resolvePolicy (preset : StrictnessPreset) : Policy :=
  applyOverlay BASE_POLICY (PRESET_POLICIES preset)

/-! ### Config hashing (renderer.ts, computeConfigHash; config.ts schema) -/

/-- `Object.keys(config)`: keys in insertion order. -/
def objKeys (o : ConfigObj) : List String := o.map Prod.fst

/-- Opening brace character (written via its code point). -/
def lbrace : Char := Char.ofNat 123

/-- Closing brace character (written via its code point). -/
def rbrace : Char := Char.ofNat 125

/-- One `"key":"value"` member of the serialized config. -/
def jsonEntry (k v : String) : List Char :=
  '"' :: k.data ++ '"' :: ':' :: '"' :: v.data ++ ['"']

/-- Joining serialized members with commas. -/
def joinComma : List (List Char) → List Char
  | [] => []
  | [p] => p
  | p :: rest => p ++ ',' :: joinComma rest

/-- `JSON.stringify(config, Object.keys(config).sort())`: serialize the
members named by the sorted key list; keys whose lookup is `undefined`
are omitted by `JSON.stringify`.  (Enum string values need no escaping.) -/
def jsonStringifySorted (o : ConfigObj) : String :=
  ⟨lbrace ::
    joinComma
      ((jsSortStrings (objKeys o)).filterMap
        (fun k => (getAssoc o k).map (fun v => jsonEntry k v))) ++ [rbrace]⟩

/-- `computeConfigHash`: SHA-256 of the canonical serialization, with the
digest modelled by the (injective) serialization itself. -/
def computeConfigHash (config : ConfigObj) : String :=
  jsonStringifySorted config

/-- The canonical member list behind the sorted serialization: the
`(key, value)` pairs in sorted key order. -/
def canonEntries (o : ConfigObj) : List (String × String) :=
  (jsSortStrings (objKeys o)).filterMap (fun k => (getAssoc o k).map (fun v => (k, v)))

/-- Strings needing no JSON escaping and containing no member separator
(true of every schema key and enum value). -/
def goodStr (s : String) : Prop := ',' ∉ s.data ∧ '"' ∉ s.data

instance : DecidablePred goodStr := fun _ =>
  inferInstanceAs (Decidable (_ ∧ _))

/-- The zod schema's mandatory keys (config.ts); `backend` is optional. -/
def REQUIRED_KEYS : List String :=
  ["projectType", "packageManager", "strictnessPreset", "testingLevel",
   "billingProvider", "analyticsProvider", "observability"]

/-- The zod schema's per-key enum values (config.ts). -/
def ENUMS : List (String × List String) :=
  [("projectType", ["expo-eas", "nextjs"]),
   ("backend", ["supabase"]),
   ("packageManager", ["npm"]),
   ("strictnessPreset", ["startup", "pro", "enterprise"]),
   ("testingLevel", ["none", "unit", "unit-e2e"]),
   ("billingProvider", ["none", "revenuecat", "stripe"]),
   ("analyticsProvider", ["none", "amplitude", "mixpanel", "posthog"]),
   ("observability", ["none", "sentry"])]

/-- Allowed values for a config key. -/
def enumValues (k : String) : List String :=
  (getAssoc ENUMS k).getD []

/-- A runtime object of type `ProjectConfig` (the output type of
`validateProjectConfig`): unique keys, all mandatory keys present, every
value in its key's enum (which also forces every key to be a schema key). -/
def validConfig (o : ConfigObj) : Prop :=
  (objKeys o).Nodup ∧
  (∀ k ∈ REQUIRED_KEYS, k ∈ objKeys o) ∧
  ∀ e ∈ o, e.2 ∈ enumValues e.1

instance : DecidablePred validConfig := fun _ =>
  inferInstanceAs (Decidable (_ ∧ _ ∧ _))

/-! ### Renderer (renderer.ts) -/

/-- `normalizeLineEndings` first pass: `text.replace(/\r\n/g, '\n')`
(global, left-to-right, non-overlapping). -/
def replaceCRLF : List Char → List Char
  | [] => []
  | '\r' :: '\n' :: rest => '\n' :: replaceCRLF rest
  | c :: rest => c :: replaceCRLF rest

/-- `normalizeLineEndings`: replace every CRLF, then every remaining CR,
by LF. -/
def normalizeLineEndings (content : Content) : Content :=
  (replaceCRLF content).map (fun c => if c = '\r' then '\n' else c)

/-- `computeSha256`: digest modelled by the (injective) content itself. -/
def computeSha256 (content : Content) : String := ⟨content⟩

/-- `sortFileMap`: `Object.entries(files)` sorted by
`a.localeCompare(b)` on paths. -/
def sortFileMap (files : FileMap) : FileMap :=
  files.insertionSort fileLe

/-- Errors thrown by `Renderer.render`. -/
inductive RenderError
  | cycles (msgs : List String)
  | order (e : OrderError)
  | conflict (path : String) (writers : List String)
deriving DecidableEq

/-- `Manifest` (types.ts, shape given in the spec): `files` holds
`{path, sha256}` pairs. -/
structure Manifest where
  generatorVersion : String
  policyVersion : String
  configHash : String
  files : List (String × String)
deriving DecidableEq

/-- `RenderResult`: the sorted file map plus the manifest. -/
structure RenderResult where
  files : FileMap
  manifest : Manifest
deriving DecidableEq

/-- `GENERATOR_VERSION` of renderer.ts. -/
def GENERATOR_VERSION : String := "0.1.0"

/-- `POLICY_VERSION` of renderer.ts. -/
def POLICY_VERSION : String := "1.0.0"

/-- Per-path writer attribution: `fileWriters`. -/
abbrev WritersMap := List (String × List String)

/-- One iteration of the renderer's plugin loop: snapshot the path set,
run the plugin's `addFile` calls, and attribute every newly created path
to this plugin. -/
def runPlugin (p : Plugin) (acc : FileMap × WritersMap) : FileMap × WritersMap :=
  let ctx := acc.1
  let before := dedupSet (ctx.map Prod.fst)
  let ctx2 := (p.apply ctx).foldl (fun m w => setAssoc m w.1 w.2) ctx
  let after := dedupSet (ctx2.map Prod.fst)
  let writers := after.foldl
    (fun ws path =>
      if path ∈ before then ws
      else setAssoc ws path ((getAssoc ws path).getD [] ++ [p.id]))
    acc.2
  (ctx2, writers)

/-- The fixed phase order of the renderer. -/
def phaseList : List PluginPhase := [.pre, .render, .post, .ci]

/-- Execute all phases in order against one shared context seeded with
`existingFiles` (the `InMemoryGeneratorContext` constructor copies the
seed into the fresh file map). -/
def runPhases (grouped : PluginPhase → List Plugin) (ctx0 : FileMap) : FileMap × WritersMap :=
  phaseList.foldl
    (fun acc phase => (grouped phase).foldl (fun a p => runPlugin p a) acc)
    (ctx0, [])

/-- `plugin?.conflictPolicy || 'error'` for one contributing writer. -/
def conflictPolicyOf (registry : Registry) (id : String) : ConflictPolicy :=
  ((Registry.get registry id).bind Plugin.conflictPolicy).getD .error

/-- The renderer's conflict scan: the first path with more than one
attributed writer of which at least one resolves to the `error` policy. -/
def findConflict (registry : Registry) (writers : WritersMap) :
    Option (String × List String) :=
  writers.find?
    (fun e =>
      decide (1 < e.2.length) &&
        (e.2.map (conflictPolicyOf registry)).any (fun p => p = .error))

/-- The applicable subset: registered plugins whose `appliesTo(config)`
holds. -/
def applicableOf (registry : Registry) (config : ConfigObj) : List Plugin :=
  (Registry.getAll registry).filter (fun p => p.appliesTo config)

/-- Normalize every output buffer. -/
def normalizedOf (files : FileMap) : FileMap :=
  files.map (fun pc => (pc.1, normalizeLineEndings pc.2))

/-- `Renderer.render(config, policy, existingFiles?)`.  The `policy`
argument is only stored into the context for plugins to read, which the
plugin model absorbs, so it does not appear here. -/
def render (registry : Registry) (config : ConfigObj) (existingFiles : FileMap) :
    Except RenderError RenderResult :=
  let applicablePlugins := applicableOf registry config
  let cycleErrors := detectCycles (buildDependencyGraph applicablePlugins)
  if cycleErrors ≠ [] then .error (.cycles cycleErrors)
  else
    match resolvePluginOrder applicablePlugins registry with
    | .error e => .error (.order e)
    | .ok orderedPlugins =>
      let run := runPhases (groupPluginsByPhase orderedPlugins) existingFiles
      match findConflict registry run.2 with
      | some e => .error (.conflict e.1 e.2)
      | none =>
        let sortedFiles := sortFileMap (normalizedOf run.1)
        .ok
          { files := sortedFiles
            manifest :=
              { generatorVersion := GENERATOR_VERSION
                policyVersion := POLICY_VERSION
                configHash := computeConfigHash config
                files := sortedFiles.map (fun pc => (pc.1, computeSha256 pc.2)) } }

/-! ## Generic instances and association-list lemmas -/

instance {ε α : Type} [DecidableEq ε] [DecidableEq α] : DecidableEq (Except ε α) :=
  fun a b =>
    match a, b with
    | .error x, .error y =>
      if h : x = y then .isTrue (by rw [h])
      else .isFalse (fun hc => h (by cases hc; rfl))
    | .error _, .ok _ => .isFalse (fun hc => by cases hc)
    | .ok _, .error _ => .isFalse (fun hc => by cases hc)
    | .ok x, .ok y =>
      if h : x = y then .isTrue (by rw [h])
      else .isFalse (fun hc => h (by cases hc; rfl))

theorem getAssoc_eq_none_iff {α : Type} (l : List (String × α)) (k : String) :
    getAssoc l k = none ↔ k ∉ l.map Prod.fst := by
  induction l with
  | nil => simp [getAssoc]
  | cons e rest ih =>
    obtain ⟨k1, v1⟩ := e
    by_cases h : k1 = k
    · subst h
      simp [getAssoc]
    · simp [getAssoc, h, ih, Ne.symm h]

theorem getAssoc_isSome_iff {α : Type} (l : List (String × α)) (k : String) :
    (getAssoc l k).isSome ↔ k ∈ l.map Prod.fst := by
  induction l with
  | nil => simp [getAssoc]
  | cons e rest ih =>
    obtain ⟨k1, v1⟩ := e
    by_cases h : k1 = k
    · subst h
      simp [getAssoc]
    · simp [getAssoc, h, ih, Ne.symm h]

theorem mem_of_getAssoc_eq_some {α : Type} {l : List (String × α)} {k : String} {v : α}
    (h : getAssoc l k = some v) : (k, v) ∈ l := by
  induction l with
  | nil => simp [getAssoc] at h
  | cons e rest ih =>
    obtain ⟨k1, v1⟩ := e
    by_cases hk : k1 = k
    · subst hk
      simp [getAssoc] at h
      simp [h]
    · simp [getAssoc, hk] at h
      simp [ih h]

theorem getAssoc_eq_some_of_mem_nodup {α : Type} {l : List (String × α)} {k : String} {v : α}
    (hmem : (k, v) ∈ l) (hnd : (l.map Prod.fst).Nodup) : getAssoc l k = some v := by
  induction l with
  | nil => simp at hmem
  | cons e rest ih =>
    obtain ⟨k1, v1⟩ := e
    simp only [List.map_cons, List.nodup_cons] at hnd
    rcases List.mem_cons.mp hmem with h | h
    · obtain ⟨h1, h2⟩ := Prod.mk.injEq .. ▸ h
      simp [getAssoc, h1.symm, h2]
    · have hk : k1 ≠ k := by
        intro he
        subst he
        exact hnd.1 (List.mem_map.mpr ⟨(k1, v), h, rfl⟩)
      simp [getAssoc, hk, ih h hnd.2]

theorem getAssoc_append_some {α : Type} {l1 : List (String × α)} (l2 : List (String × α))
    {k : String} {v : α} (h : getAssoc l1 k = some v) : getAssoc (l1 ++ l2) k = some v := by
  induction l1 with
  | nil => simp [getAssoc] at h
  | cons e rest ih =>
    obtain ⟨k1, v1⟩ := e
    by_cases hk : k1 = k
    · simp_all [getAssoc]
    · simp_all [getAssoc, hk]

theorem getAssoc_append_none {α : Type} {l1 : List (String × α)} (l2 : List (String × α))
    {k : String} (h : getAssoc l1 k = none) : getAssoc (l1 ++ l2) k = getAssoc l2 k := by
  induction l1 with
  | nil => simp
  | cons e rest ih =>
    obtain ⟨k1, v1⟩ := e
    by_cases hk : k1 = k
    · simp_all [getAssoc]
    · simp_all [getAssoc, hk]

/-! ## Lemmas about the collation-order model -/

theorem orderingThenSwap (x y : Ordering) : (x.then y).swap = x.swap.then y.swap := by
  cases x <;> rfl

theorem orderingThenEqIff (x y : Ordering) : x.then y = .eq ↔ x = .eq ∧ y = .eq := by
  cases x <;> simp [Ordering.then]

theorem orderingThenLtIff (x y : Ordering) :
    x.then y = .lt ↔ x = .lt ∨ (x = .eq ∧ y = .lt) := by
  cases x <;> simp [Ordering.then]

theorem lexCmpNat_swap : ∀ a b : List Nat, lexCmpNat b a = (lexCmpNat a b).swap
  | [], [] => rfl
  | [], _ :: _ => rfl
  | _ :: _, [] => rfl
  | a :: as, b :: bs => by
    simp only [lexCmpNat]
    rcases Nat.lt_trichotomy a b with h | h | h
    · simp [h, Nat.lt_asymm h, Ordering.swap]
    · subst h
      simp [Nat.lt_irrefl]
      exact lexCmpNat_swap as bs
    · simp [h, Nat.lt_asymm h, Ordering.swap]

theorem lexCmpNat_eq_iff : ∀ a b : List Nat, lexCmpNat a b = .eq ↔ a = b
  | [], [] => by simp [lexCmpNat]
  | [], _ :: _ => by simp [lexCmpNat]
  | _ :: _, [] => by simp [lexCmpNat]
  | a :: as, b :: bs => by
    simp only [lexCmpNat]
    rcases Nat.lt_trichotomy a b with h | h | h
    · simp [h]
      omega
    · subst h
      simp [Nat.lt_irrefl, lexCmpNat_eq_iff as bs]
    · simp [h, Nat.lt_asymm h]
      omega

theorem lexCmpNat_lt_trans {a : List Nat} :
    ∀ {b c : List Nat}, lexCmpNat a b = .lt → lexCmpNat b c = .lt → lexCmpNat a c = .lt := by
  induction a with
  | nil =>
    intro b c hab hbc
    cases b with
    | nil => simp [lexCmpNat] at hab
    | cons y ys =>
      cases c with
      | nil => simp [lexCmpNat] at hbc
      | cons z zs => simp [lexCmpNat]
  | cons x xs ih =>
    intro b c hab hbc
    cases b with
    | nil => simp [lexCmpNat] at hab
    | cons y ys =>
      cases c with
      | nil => simp [lexCmpNat] at hbc
      | cons z zs =>
        simp only [lexCmpNat] at hab hbc ⊢
        by_cases h1 : x < y
        · by_cases h2 : y < z
          · rw [if_pos (by omega)]
          · rw [if_neg h2] at hbc
            by_cases h3 : z < y
            · rw [if_pos h3] at hbc
              cases hbc
            · rw [if_pos (by omega)]
        · rw [if_neg h1] at hab
          by_cases h1b : y < x
          · rw [if_pos h1b] at hab
            cases hab
          · rw [if_neg h1b] at hab
            have hxy : x = y := by omega
            subst hxy
            by_cases h2 : x < z
            · rw [if_pos h2]
            · rw [if_neg h2] at hbc ⊢
              by_cases h3 : z < x
              · rw [if_pos h3] at hbc
                cases hbc
              · rw [if_neg h3] at hbc ⊢
                exact ih hab hbc

theorem foldCase_upFlag_inj {x y : Nat} (h1 : foldCase x = foldCase y) (h2 : upFlag x = upFlag y) :
    x = y := by
  simp only [foldCase, upFlag] at h1 h2
  by_cases hx : 65 ≤ x ∧ x ≤ 90 <;> by_cases hy : 65 ≤ y ∧ y ≤ 90 <;>
    simp [hx, hy] at h1 h2 <;> omega

theorem charKeys_inj :
    ∀ l1 l2 : List Char,
      l1.map (fun c => foldCase c.toNat) = l2.map (fun c => foldCase c.toNat) →
      l1.map (fun c => upFlag c.toNat) = l2.map (fun c => upFlag c.toNat) →
      l1 = l2
  | [], [], _, _ => rfl
  | [], _ :: _, h1, _ => by simp at h1
  | _ :: _, [], h1, _ => by simp at h1
  | c :: cs, d :: ds, h1, h2 => by
    simp only [List.map_cons, List.cons.injEq] at h1 h2
    have hcd : c = d := by
      have hn := foldCase_upFlag_inj h1.1 h2.1
      rw [← Char.ofNat_toNat c, ← Char.ofNat_toNat d, hn]
    exact hcd ▸ congrArg (c :: ·) (charKeys_inj cs ds h1.2 h2.2)

theorem localeKey_inj {a b : String} (h1 : primaryKey a = primaryKey b)
    (h2 : caseKey a = caseKey b) : a = b :=
  String.ext (charKeys_inj a.data b.data h1 h2)

theorem localeCompare_swap (a b : String) : localeCompare b a = (localeCompare a b).swap := by
  unfold localeCompare
  rw [lexCmpNat_swap (primaryKey a), lexCmpNat_swap (caseKey a), orderingThenSwap]

theorem localeCompare_eq_iff {a b : String} : localeCompare a b = .eq ↔ a = b := by
  constructor
  · intro h
    unfold localeCompare at h
    rw [orderingThenEqIff, lexCmpNat_eq_iff, lexCmpNat_eq_iff] at h
    exact localeKey_inj h.1 h.2
  · rintro rfl
    unfold localeCompare
    rw [(lexCmpNat_eq_iff _ _).mpr rfl, (lexCmpNat_eq_iff _ _).mpr rfl]
    rfl

theorem localeCompare_lt_trans {a b c : String} (hab : localeCompare a b = .lt)
    (hbc : localeCompare b c = .lt) : localeCompare a c = .lt := by
  unfold localeCompare at hab hbc ⊢
  rw [orderingThenLtIff] at hab hbc ⊢
  rcases hab with h1 | ⟨h1, h1c⟩
  · rcases hbc with h2 | ⟨h2, _⟩
    · exact Or.inl (lexCmpNat_lt_trans h1 h2)
    · rw [lexCmpNat_eq_iff] at h2
      exact Or.inl (h2 ▸ h1)
  · rw [lexCmpNat_eq_iff] at h1
    rcases hbc with h2 | ⟨h2, h2c⟩
    · exact Or.inl (h1 ▸ h2)
    · rw [lexCmpNat_eq_iff] at h2
      refine Or.inr ⟨?_, lexCmpNat_lt_trans h1c h2c⟩
      rw [lexCmpNat_eq_iff]
      exact h1.trans h2

theorem locLe_total (a b : String) : locLe a b ∨ locLe b a := by
  unfold locLe
  by_cases h : localeCompare a b = .gt
  · right
    rw [localeCompare_swap, h]
    simp [Ordering.swap]
  · exact Or.inl h

theorem locLe_trans {a b c : String} (hab : locLe a b) (hbc : locLe b c) : locLe a c := by
  unfold locLe at hab hbc ⊢
  cases h1 : localeCompare a b with
  | gt => exact absurd h1 hab
  | eq =>
    rw [localeCompare_eq_iff] at h1
    rw [h1]
    exact hbc
  | lt =>
    cases h2 : localeCompare b c with
    | gt => exact absurd h2 hbc
    | eq =>
      rw [localeCompare_eq_iff] at h2
      rw [← h2]
      simp [h1]
    | lt => simp [localeCompare_lt_trans h1 h2]

theorem locLe_antisymm {a b : String} (hab : locLe a b) (hba : locLe b a) : a = b := by
  unfold locLe at hab hba
  rw [localeCompare_swap] at hba
  cases h : localeCompare a b with
  | gt => exact absurd h hab
  | lt => rw [h] at hba; simp [Ordering.swap] at hba
  | eq => exact localeCompare_eq_iff.mp h

instance : IsTotal String locLe := ⟨locLe_total⟩

instance : IsTrans String locLe := ⟨fun _ _ _ => locLe_trans⟩

instance : IsAntisymm String locLe := ⟨fun _ _ => locLe_antisymm⟩

instance : IsTotal Plugin pluginLe := ⟨fun a b => locLe_total a.id b.id⟩

instance : IsTrans Plugin pluginLe := ⟨fun _ _ _ => locLe_trans⟩

instance : IsTotal (String × Content) fileLe := ⟨fun a b => locLe_total a.1 b.1⟩

instance : IsTrans (String × Content) fileLe := ⟨fun _ _ _ => locLe_trans⟩

/-! ## C9: registration enforces unique plugin ids -/

/-- C9: `register(plugin)` fails exactly when a plugin with the same id is
already registered (and, being a throw before any mutation, leaves the
registry unchanged); on success `get(plugin.id)` returns the new plugin,
lookups of other ids are unaffected, and key uniqueness is preserved, so
plugin ids remain unique within a registry after every sequence of
operations. -/
theorem register_duplicate_id_spec :
    ∀ (r : Registry) (p : Plugin),
      ((∃ msg, Registry.register r p = .error msg) ↔ (Registry.get r p.id).isSome) ∧
      ∀ r2, Registry.register r p = .ok r2 →
        Registry.get r2 p.id = some p ∧
        (∀ id, id ≠ p.id → Registry.get r2 id = Registry.get r id) ∧
        ((r.map Prod.fst).Nodup → (r2.map Prod.fst).Nodup) := by
  intro r p
  simp only [Registry.register, Registry.get]
  by_cases h : (getAssoc r p.id).isSome
  · rw [if_pos h]
    refine ⟨⟨fun _ => h, fun _ => ⟨_, rfl⟩⟩, ?_⟩
    intro r2 hok
    cases hok
  · rw [if_neg h]
    constructor
    · constructor
      · rintro ⟨msg, hmsg⟩
        cases hmsg
      · intro hs
        exact absurd hs h
    · intro r2 hok
      have hr2 : r2 = r ++ [(p.id, p)] := by cases hok; rfl
      have hnone : getAssoc r p.id = none := by
        cases hg : getAssoc r p.id
        · rfl
        · rw [hg] at h
          simp at h
      subst hr2
      refine ⟨?_, ?_, ?_⟩
      · rw [getAssoc_append_none _ hnone]
        simp [getAssoc]
      · intro id hid
        cases hg : getAssoc r id with
        | some v => rw [getAssoc_append_some _ hg]
        | none =>
          rw [getAssoc_append_none _ hg]
          simp [getAssoc, hid.symm, hg]
      · intro hnd
        have hpid : p.id ∉ r.map Prod.fst := (getAssoc_eq_none_iff r p.id).mp hnone
        simp [List.nodup_append, hnd, hpid]

/-- Concrete witness plugin for C9. -/
def wReg : Plugin :=
  { id := "w", version := "0.1.0", appliesTo := fun _ => true, apply := fun _ => [] }

/-- Witness for C9: registering into the empty registry succeeds and the
conclusions hold at that concrete input. -/
theorem register_duplicate_id_spec_witness :
    Registry.get [("w", wReg)] "w" = some wReg ∧
    (∀ id, id ≠ "w" → Registry.get [("w", wReg)] id = Registry.get [] id) ∧
    ((([] : Registry).map Prod.fst).Nodup → ([("w", wReg)].map Prod.fst).Nodup) :=
  (register_duplicate_id_spec [] wReg).2 [("w", wReg)] rfl

/-! ## C8: policy resolution -/

/-- C8: `resolvePolicy` starts from the base policy, overlays the selected
preset, and merges the nested `runtimeSafety` and `process` groups field by
field (an overlay that leaves a nested flag absent keeps the base value for
that flag); the three presets have strictly increasing requiredChecks sets,
version posture latest-major / pinned-minor / pinned-exact, and the process
flags are true only for the enterprise preset. -/
theorem resolvePolicy_preset_spec :
    (∀ o : PolicyOverlay,
      (applyOverlay BASE_POLICY o).runtimeSafety.boundaryValidationRequired
          = ((o.runtimeSafety.getD {}).boundaryValidationRequired).getD
              BASE_POLICY.runtimeSafety.boundaryValidationRequired ∧
      (applyOverlay BASE_POLICY o).process.codeownersRequired
          = ((o.process.getD {}).codeownersRequired).getD
              BASE_POLICY.process.codeownersRequired ∧
      (applyOverlay BASE_POLICY o).process.auditTrailRequired
          = ((o.process.getD {}).auditTrailRequired).getD
              BASE_POLICY.process.auditTrailRequired) ∧
    ((resolvePolicy .startup).requiredChecks = ["lint", "typecheck"] ∧
     (resolvePolicy .pro).requiredChecks = ["lint", "typecheck", "test", "build"] ∧
     (resolvePolicy .enterprise).requiredChecks
        = ["lint", "typecheck", "test", "build", "e2e", "security", "audit"]) ∧
    ((∀ c ∈ (resolvePolicy .startup).requiredChecks, c ∈ (resolvePolicy .pro).requiredChecks) ∧
     ¬ (∀ c ∈ (resolvePolicy .pro).requiredChecks, c ∈ (resolvePolicy .startup).requiredChecks) ∧
     (∀ c ∈ (resolvePolicy .pro).requiredChecks, c ∈ (resolvePolicy .enterprise).requiredChecks) ∧
     ¬ (∀ c ∈ (resolvePolicy .enterprise).requiredChecks,
          c ∈ (resolvePolicy .pro).requiredChecks)) ∧
    ((resolvePolicy .startup).versionPosture = .latestMajor ∧
     (resolvePolicy .pro).versionPosture = .pinnedMinor ∧
     (resolvePolicy .enterprise).versionPosture = .pinnedExact) ∧
    ((resolvePolicy .startup).process.codeownersRequired = false ∧
     (resolvePolicy .pro).process.codeownersRequired = false ∧
     (resolvePolicy .enterprise).process.codeownersRequired = true ∧
     (resolvePolicy .startup).process.auditTrailRequired = false ∧
     (resolvePolicy .pro).process.auditTrailRequired = false ∧
     (resolvePolicy .enterprise).process.auditTrailRequired = true) := by
  refine ⟨fun o => ⟨rfl, rfl, rfl⟩, ?_, ?_, ?_, ?_⟩ <;> decide

/-! ## C4: unregistered candidate plugins -/

/-- A plugin not present in any registry, used to refute C4 as stated. -/
def ghostP : Plugin :=
  { id := "ghost", version := "0.1.0", appliesTo := fun _ => true, apply := fun _ => [] }

/-- Counterexample to C4 as stated: a candidate list containing a plugin
whose id is not registered does not make `resolvePluginOrder` fail — the
unregistered candidate is silently dropped and the empty order is
returned. -/
theorem resolveOrder_unregistered_ok :
    resolvePluginOrder [ghostP] [] = .ok [] := by
  rfl

/-- C4 (amended): `resolvePluginOrder` never rejects a candidate merely for
being unregistered; it behaves exactly as if the unregistered candidates had
been removed from the input (errors can only arise from the registered
subset: its cycles, or its dependencies missing from the registry). -/
theorem resolveOrder_filters_unregistered :
    ∀ (plugins : List Plugin) (registry : Registry),
      resolvePluginOrder plugins registry =
        resolvePluginOrder
          (plugins.filter (fun p => (Registry.get registry p.id).isSome)) registry := by
  intro plugins registry
  simp only [resolvePluginOrder, List.filter_filter, Bool.and_self]

/-! ## Ranked graphs: the cycle scan finds nothing on acyclic graphs -/

/-- A ranking certifies acyclicity: every dependency edge strictly
decreases the rank. -/
def RankedGraph (g : DependencyGraph) (rank : String → Nat) : Prop :=
  ∀ e ∈ g.edges, ∀ d ∈ e.2, rank d < rank e.1

instance (g : DependencyGraph) (rank : String → Nat) : Decidable (RankedGraph g rank) :=
  inferInstanceAs (Decidable (∀ e ∈ g.edges, ∀ d ∈ e.2, rank d < rank e.1))

/-- On a ranked graph, `detectVisit` can never find its argument on the
recursion stack (the stack is always strictly rank-increasing above the
argument), so it adds no errors and restores the stack. -/
theorem detectVisit_ranked {g : DependencyGraph} {rank : String → Nat}
    (hr : RankedGraph g rank) :
    ∀ (fuel : Nat) (node : String) (path : List String) (st : DFSState),
      (∀ v ∈ st.stack, rank node < rank v) →
      (detectVisit g fuel node path st).errors = st.errors ∧
      (detectVisit g fuel node path st).stack = st.stack := by
  intro fuel
  induction fuel with
  | zero =>
    intro node path st _
    exact ⟨rfl, rfl⟩
  | succ n ih =>
    intro node path st hchain
    simp only [detectVisit]
    by_cases h1 : node ∈ st.stack
    · exact absurd (hchain node h1) (lt_irrefl _)
    · rw [if_neg h1]
      by_cases h2 : node ∈ st.visited
      · rw [if_pos h2]
        exact ⟨rfl, rfl⟩
      · rw [if_neg h2]
        cases hedge : getAssoc g.edges node with
        | none =>
          refine ⟨rfl, ?_⟩
          show (st.stack ++ [node]).erase node = st.stack
          rw [List.erase_append_right _ h1]
          simp
        | some deps =>
          have hfold :
              ∀ (ds : List String) (s : DFSState),
                (∀ d ∈ ds, d ∈ deps) →
                s.errors = st.errors → s.stack = st.stack ++ [node] →
                (ds.foldl (fun s d => detectVisit g n d (path ++ [node]) s) s).errors
                    = st.errors ∧
                (ds.foldl (fun s d => detectVisit g n d (path ++ [node]) s) s).stack
                    = st.stack ++ [node] := by
            intro ds
            induction ds with
            | nil =>
              intro s _ he hs
              exact ⟨he, hs⟩
            | cons d ds ihd =>
              intro s hmem he hs
              simp only [List.foldl_cons]
              have hdn : rank d < rank node :=
                hr (node, deps) (mem_of_getAssoc_eq_some hedge) d (hmem d (List.mem_cons_self d ds))
              have hstep := ih d (path ++ [node]) s (by
                rw [hs]
                intro v hv
                rcases List.mem_append.mp hv with hv | hv
                · exact hdn.trans (hchain v hv)
                · rw [List.mem_singleton.mp hv]
                  exact hdn)
              exact ihd _ (fun x hx => hmem x (List.mem_cons_of_mem d hx))
                (hstep.1.trans he) (hstep.2.trans hs)
          have hmain := hfold deps
            { st with visited := st.visited ++ [node], stack := st.stack ++ [node] }
            (fun _ hd => hd) rfl rfl
          refine ⟨hmain.1, ?_⟩
          show (deps.foldl (fun s d => detectVisit g n d (path ++ [node]) s)
            { st with visited := st.visited ++ [node],
                      stack := st.stack ++ [node] }).stack.erase node = st.stack
          rw [hmain.2, List.erase_append_right _ h1]
          simp

/-- On a ranked (hence acyclic) graph, `detectCycles` reports nothing,
whatever the insertion order of nodes and dependency sets. -/
theorem detectCycles_ranked {g : DependencyGraph} {rank : String → Nat}
    (hr : RankedGraph g rank) : detectCycles g = [] := by
  unfold detectCycles
  have hfold :
      ∀ (ns : List String) (st : DFSState), st.errors = [] → st.stack = [] →
        (ns.foldl
          (fun st n => if n ∈ st.visited then st else detectVisit g (graphSize g) n [] st)
          st).errors = [] := by
    intro ns
    induction ns with
    | nil =>
      intro st he _
      exact he
    | cons n ns ihn =>
      intro st he hs
      simp only [List.foldl_cons]
      by_cases h : n ∈ st.visited
      · rw [if_pos h]
        exact ihn st he hs
      · rw [if_neg h]
        have hv := detectVisit_ranked hr (graphSize g) n [] st (by
          rw [hs]
          intro v hv
          cases hv)
        exact ihn _ (hv.1.trans he) (hv.2.trans hs)
  exact hfold g.nodes ⟨[], [], []⟩ rfl rfl

/-! ## C2: detectCycles and insertion order -/

/-- The cycle `a <-> b` inserted with node order `[a, b]`. -/
def cyc1 : DependencyGraph := ⟨["a", "b"], [("a", ["b"]), ("b", ["a"])]⟩

/-- The same cycle as a set structure, node order `[b, a]`. -/
def cyc2 : DependencyGraph := ⟨["b", "a"], [("a", ["b"]), ("b", ["a"])]⟩

/-- Counterexample to C2 as stated: two graphs with the same node set and
the same edge sets, differing only in node insertion order, make
`detectCycles` report different cycle strings — the traversal follows
insertion order, not sorted-id order. -/
theorem detectCycles_not_order_invariant :
    cyc1.nodes.Perm cyc2.nodes ∧ cyc1.edges = cyc2.edges ∧
    detectCycles cyc1 = ["Dependency cycle detected: a -> b -> a"] ∧
    detectCycles cyc2 = ["Dependency cycle detected: b -> a -> b"] ∧
    detectCycles cyc1 ≠ detectCycles cyc2 := by
  decide

/-- C2 (amended): `detectCycles` is deterministic for a fixed
`DependencyGraph` value but its cycle strings depend on the insertion order
of nodes and dependency sets; the insertion-order-invariance claimed by the
spec holds only for the outcome on acyclic graphs: whenever the edge
relation admits a strict ranking, every insertion order yields the empty
report. -/
theorem detectCycles_acyclic_empty :
    ∀ (g : DependencyGraph) (rank : String → Nat),
      RankedGraph g rank → detectCycles g = [] :=
  fun _ _ hr => detectCycles_ranked hr

/-- Witness for C2's amended theorem at a concrete acyclic two-node graph
with a concrete ranking. -/
theorem detectCycles_acyclic_empty_witness :
    detectCycles ⟨["b", "a"], [("b", ["a"])]⟩ = [] :=
  detectCycles_acyclic_empty _ (fun s => if s = "b" then 1 else 0) (by decide)

/-! ## Lemmas about sets, maps and the writer attribution -/

theorem mem_addSet {l : List String} {a x : String} :
    x ∈ addSet l a ↔ x ∈ l ∨ x = a := by
  unfold addSet
  by_cases h : a ∈ l
  · rw [if_pos h]
    constructor
    · exact Or.inl
    · rintro (hx | rfl)
      · exact hx
      · exact h
  · rw [if_neg h]
    simp

theorem nodup_addSet {l : List String} (a : String) (h : l.Nodup) : (addSet l a).Nodup := by
  unfold addSet
  by_cases ha : a ∈ l
  · rw [if_pos ha]
    exact h
  · rw [if_neg ha]
    simp [List.nodup_append, h, ha]

theorem dedupSet_foldl_spec (l : List String) :
    ∀ acc : List String, acc.Nodup →
      (l.foldl addSet acc).Nodup ∧ ∀ x, x ∈ l.foldl addSet acc ↔ x ∈ acc ∨ x ∈ l := by
  induction l with
  | nil =>
    intro acc h
    simp [h]
  | cons a as ih =>
    intro acc h
    obtain ⟨hn, hm⟩ := ih (addSet acc a) (nodup_addSet a h)
    refine ⟨hn, fun x => ?_⟩
    rw [List.foldl_cons, hm x, mem_addSet]
    constructor
    · rintro ((hx | rfl) | hx)
      · exact Or.inl hx
      · exact Or.inr (List.mem_cons_self _ _)
      · exact Or.inr (List.mem_cons_of_mem _ hx)
    · rintro (hx | hx)
      · exact Or.inl (Or.inl hx)
      · rcases List.mem_cons.mp hx with rfl | hx
        · exact Or.inl (Or.inr rfl)
        · exact Or.inr hx

theorem mem_dedupSet {l : List String} {x : String} : x ∈ dedupSet l ↔ x ∈ l := by
  unfold dedupSet
  rw [(dedupSet_foldl_spec l [] (by simp)).2 x]
  simp

theorem nodup_dedupSet (l : List String) : (dedupSet l).Nodup :=
  (dedupSet_foldl_spec l [] (by simp)).1

theorem mem_setAssoc {α : Type} {l : List (String × α)} {k : String} {v : α} {e : String × α}
    (h : e ∈ setAssoc l k v) : e ∈ l ∨ e = (k, v) := by
  induction l with
  | nil =>
    simp [setAssoc] at h
    exact Or.inr h
  | cons f rest ih =>
    obtain ⟨k1, v1⟩ := f
    by_cases hk : k1 = k
    · subst hk
      simp only [setAssoc, if_pos rfl] at h
      rcases List.mem_cons.mp h with rfl | h
      · exact Or.inr rfl
      · exact Or.inl (List.mem_cons_of_mem _ h)
    · simp only [setAssoc, if_neg hk] at h
      rcases List.mem_cons.mp h with rfl | h
      · exact Or.inl (List.mem_cons_self _ _)
      · rcases ih h with h | h
        · exact Or.inl (List.mem_cons_of_mem _ h)
        · exact Or.inr h

theorem keys_setAssoc {α : Type} (l : List (String × α)) (k : String) (v : α) :
    (setAssoc l k v).map Prod.fst = if k ∈ l.map Prod.fst then l.map Prod.fst
      else l.map Prod.fst ++ [k] := by
  induction l with
  | nil => simp [setAssoc]
  | cons f rest ih =>
    obtain ⟨k1, v1⟩ := f
    by_cases hk : k1 = k
    · subst hk
      simp [setAssoc]
    · simp only [setAssoc, if_neg hk, List.map_cons, ih]
      by_cases hmem : k ∈ rest.map Prod.fst
      · rw [if_pos hmem, if_pos (by simp [hmem])]
      · rw [if_neg hmem, if_neg (by simp [hmem, Ne.symm hk])]
        simp

theorem mem_keys_setAssoc {α : Type} {l : List (String × α)} {k x : String} {v : α} :
    x ∈ (setAssoc l k v).map Prod.fst ↔ x ∈ l.map Prod.fst ∨ x = k := by
  rw [keys_setAssoc]
  by_cases h : k ∈ l.map Prod.fst
  · rw [if_pos h]
    constructor
    · exact Or.inl
    · rintro (hx | rfl)
      · exact hx
      · exact h
  · rw [if_neg h]
    simp

theorem getAssoc_setAssoc_ne {α : Type} {l : List (String × α)} {k k' : String} {v : α}
    (h : k' ≠ k) : getAssoc (setAssoc l k v) k' = getAssoc l k' := by
  induction l with
  | nil => simp [setAssoc, getAssoc, Ne.symm h]
  | cons f rest ih =>
    obtain ⟨k1, v1⟩ := f
    by_cases hk : k1 = k
    · subst hk
      have hne : k1 ≠ k' := fun he => h he.symm
      simp [setAssoc, getAssoc, hne]
    · simp only [setAssoc, if_neg hk]
      by_cases hk2 : k1 = k'
      · simp [getAssoc, hk2]
      · simp [getAssoc, hk2, ih]

theorem writes_keys_superset (writes : List (String × Content)) :
    ∀ m : FileMap, ∀ x ∈ m.map Prod.fst,
      x ∈ (writes.foldl (fun m w => setAssoc m w.1 w.2) m).map Prod.fst := by
  induction writes with
  | nil =>
    intro m x hx
    exact hx
  | cons w ws ih =>
    intro m x hx
    simp only [List.foldl_cons]
    exact ih _ x (mem_keys_setAssoc.mpr (Or.inl hx))

/-- The writer-attribution invariant: every already-recorded writer list has
at most one element and its path already exists in the context. -/
def WInv (ctx : FileMap) (ws : WritersMap) : Prop :=
  ∀ e ∈ ws, e.2.length ≤ 1 ∧ e.1 ∈ ctx.map Prod.fst

theorem writersFold_spec (pid : String) (beforeKeys : List String) :
    ∀ (paths : List String) (ws : WritersMap),
      paths.Nodup →
      (∀ e ∈ ws, e.2.length ≤ 1) →
      (∀ path ∈ paths, path ∉ beforeKeys → getAssoc ws path = none) →
      ∀ e ∈ paths.foldl
          (fun ws path =>
            if path ∈ beforeKeys then ws
            else setAssoc ws path ((getAssoc ws path).getD [] ++ [pid]))
          ws,
        e.2.length ≤ 1 ∧ (e ∈ ws ∨ e.1 ∈ paths) := by
  intro paths
  induction paths with
  | nil =>
    intro ws _ hlen _ e he
    exact ⟨hlen e he, Or.inl he⟩
  | cons p ps ih =>
    intro ws hnd hlen hnone e he
    simp only [List.foldl_cons] at he
    rcases List.nodup_cons.mp hnd with ⟨hp, hnd2⟩
    by_cases hb : p ∈ beforeKeys
    · rw [if_pos hb] at he
      have := ih ws hnd2 hlen
        (fun q hq hqb => hnone q (List.mem_cons_of_mem _ hq) hqb) e he
      exact ⟨this.1, this.2.imp id (List.mem_cons_of_mem _)⟩
    · rw [if_neg hb] at he
      rw [hnone p (List.mem_cons_self _ _) hb] at he
      have hstep := ih (setAssoc ws p [pid]) hnd2
        (by
          intro f hf
          rcases mem_setAssoc hf with hf | rfl
          · exact hlen f hf
          · simp)
        (by
          intro q hq hqb
          rw [getAssoc_setAssoc_ne (by rintro rfl; exact hp hq)]
          exact hnone q (List.mem_cons_of_mem _ hq) hqb)
        e he
      refine ⟨hstep.1, ?_⟩
      rcases hstep.2 with hf | hf
      · rcases mem_setAssoc hf with hf | rfl
        · exact Or.inl hf
        · exact Or.inr (List.mem_cons_self _ _)
      · exact Or.inr (List.mem_cons_of_mem _ hf)

theorem runPlugin_winv (p : Plugin) {ctx : FileMap} {ws : WritersMap} (h : WInv ctx ws) :
    WInv (runPlugin p (ctx, ws)).1 (runPlugin p (ctx, ws)).2 := by
  intro e he
  simp only [runPlugin] at he ⊢
  have hctx2 := writes_keys_superset (p.apply ctx) ctx
  have hspec := writersFold_spec p.id (dedupSet (ctx.map Prod.fst))
    (dedupSet (((p.apply ctx).foldl (fun m w => setAssoc m w.1 w.2) ctx).map Prod.fst))
    ws
    (nodup_dedupSet _)
    (fun f hf => (h f hf).1)
    (by
      intro path _ hpb
      cases hg : getAssoc ws path with
      | none => rfl
      | some v =>
        have hk : path ∈ ctx.map Prod.fst := (h _ (mem_of_getAssoc_eq_some hg)).2
        exact absurd (mem_dedupSet.mpr hk) hpb)
    e he
  exact ⟨hspec.1, by
    rcases hspec.2 with hf | hf
    · exact hctx2 e.1 ((h e hf).2)
    · exact mem_dedupSet.mp hf⟩

theorem foldPlugins_winv :
    ∀ (ps : List Plugin) (acc : FileMap × WritersMap), WInv acc.1 acc.2 →
      WInv (ps.foldl (fun a p => runPlugin p a) acc).1
        (ps.foldl (fun a p => runPlugin p a) acc).2 := by
  intro ps
  induction ps with
  | nil =>
    intro acc h
    exact h
  | cons p ps ih =>
    intro acc h
    simp only [List.foldl_cons]
    exact ih _ (runPlugin_winv p h)

theorem runPhases_winv (grouped : PluginPhase → List Plugin) (ctx0 : FileMap) :
    WInv (runPhases grouped ctx0).1 (runPhases grouped ctx0).2 := by
  unfold runPhases
  have hfold :
      ∀ (phs : List PluginPhase) (acc : FileMap × WritersMap), WInv acc.1 acc.2 →
        WInv (phs.foldl (fun acc phase => (grouped phase).foldl (fun a p => runPlugin p a) acc) acc).1
          (phs.foldl (fun acc phase => (grouped phase).foldl (fun a p => runPlugin p a) acc) acc).2 := by
    intro phs
    induction phs with
    | nil =>
      intro acc h
      exact h
    | cons ph phs ih =>
      intro acc h
      simp only [List.foldl_cons]
      exact ih _ (foldPlugins_winv _ acc h)
  exact hfold phaseList (ctx0, []) (fun e he => absurd he (List.not_mem_nil e))

theorem findConflict_none_of_winv (registry : Registry) {ctx : FileMap} {ws : WritersMap}
    (h : WInv ctx ws) : findConflict registry ws = none := by
  unfold findConflict
  rw [List.find?_eq_none]
  intro e he
  have hlen := (h e he).1
  simp only [Bool.and_eq_true, decide_eq_true_eq, not_and]
  intro h1
  omega

/-! ## C1: the FileConflict check never fires -/

/-- First conflicting plugin of the C1 failing input: writes `shared.txt`,
default (`error`) conflict policy. -/
def alphaP : Plugin :=
  { id := "alpha", version := "0.1.0", appliesTo := fun _ => true,
    apply := fun _ => [("shared.txt", "one".data)] }

/-- Second conflicting plugin of the C1 failing input: overwrites
`shared.txt`, default (`error`) conflict policy. -/
def betaP : Plugin :=
  { id := "beta", version := "0.1.0", appliesTo := fun _ => true,
    apply := fun _ => [("shared.txt", "two".data)] }

/-- Registry holding the two conflicting plugins. -/
def regC1 : Registry := [("alpha", alphaP), ("beta", betaP)]

/-- C1 evaluated: two distinct plugins with (default) `error` conflict
policy both write `shared.txt`, yet render returns a successful result
holding the second writer's bytes instead of aborting with a FileConflict.
In general the conflict scan is unreachable: writer attribution diffs the
path set around each `apply`, the context's path set only ever grows, so
every path is attributed at most one writer and `findConflict` returns
`none` for every registry, plugin order and seed. -/
theorem render_fileConflict_unreachable :
    (render regC1 [] [] = .ok
      { files := [("shared.txt", "two".data)]
        manifest :=
          { generatorVersion := "0.1.0", policyVersion := "1.0.0",
            configHash := "\x7b\x7d", files := [("shared.txt", "two")] } }) ∧
    ∀ (registry : Registry) (ordered : List Plugin) (ctx0 : FileMap),
      findConflict registry (runPhases (groupPluginsByPhase ordered) ctx0).2 = none :=
  ⟨by decide, fun registry _ _ => findConflict_none_of_winv registry (runPhases_winv _ _)⟩

/-! ## Inversion of a successful render -/

theorem render_ok_elim {registry : Registry} {config : ConfigObj} {existingFiles : FileMap}
    {res : RenderResult} (h : render registry config existingFiles = .ok res) :
    ∃ ordered,
      resolvePluginOrder (applicableOf registry config) registry = .ok ordered ∧
      res.files =
        sortFileMap (normalizedOf (runPhases (groupPluginsByPhase ordered) existingFiles).1) ∧
      res.manifest.configHash = computeConfigHash config ∧
      res.manifest.files = res.files.map (fun pc => (pc.1, computeSha256 pc.2)) := by
  simp only [render] at h
  split at h
  · cases h
  · split at h
    · cases h
    · next ordered hord =>
      split at h
      · cases h
      · cases h
        exact ⟨ordered, hord, rfl, rfl, rfl⟩

/-! ## C3: output path ordering -/

/-- Counterexample to C3 as stated: a successful render whose path
sequence is `["a", "B"]`, which is not equal to its own ascending
code-unit (plain character-code) sort `["B", "a"]` — the code sorts with
`localeCompare`, which puts `a` before `B`. -/
theorem render_paths_not_codeunit_sorted :
    (render [] [] [("B", "x".data), ("a", "y".data)]).map
        (fun r => r.files.map Prod.fst) = .ok ["a", "B"] ∧
    (["a", "B"] : List String).insertionSort codeLe = ["B", "a"] ∧
    (["a", "B"] : List String) ≠ ["B", "a"] := by
  decide

/-- C3 (amended): for every successful render, the path sequence of the
file map and the path sequence of the manifest's files list are identical
(in particular they hold exactly the same set of paths), and each is equal
to its own ascending sort under the code's collation order
(`localeCompare`: case-insensitive primary pass, lowercase before
uppercase), which coincides with plain character-code order only when no
paths differ in case. -/
theorem render_paths_sorted {registry : Registry} {config : ConfigObj}
    {existingFiles : FileMap} {res : RenderResult}
    (h : render registry config existingFiles = .ok res) :
    res.files.map Prod.fst = res.manifest.files.map Prod.fst ∧
    List.Sorted locLe (res.files.map Prod.fst) ∧
    (res.files.map Prod.fst).insertionSort locLe = res.files.map Prod.fst ∧
    (res.manifest.files.map Prod.fst).insertionSort locLe
      = res.manifest.files.map Prod.fst := by
  obtain ⟨ordered, _, hfiles, _, hman⟩ := render_ok_elim h
  have hpaths : res.files.map Prod.fst = res.manifest.files.map Prod.fst := by
    rw [hman, List.map_map]
    rfl
  have hsortedPairs : List.Sorted fileLe res.files := by
    rw [hfiles]
    exact List.sorted_insertionSort fileLe _
  have hsorted : List.Sorted locLe (res.files.map Prod.fst) :=
    List.Pairwise.map Prod.fst (fun _ _ hab => hab) hsortedPairs
  refine ⟨hpaths, hsorted, hsorted.insertionSort_eq, ?_⟩
  rw [← hpaths]
  exact hsorted.insertionSort_eq

/-- Concrete successful render used to witness C3's amended theorem. -/
def resC3 : RenderResult :=
  { files := [("a", "y".data), ("B", "x".data)]
    manifest :=
      { generatorVersion := "0.1.0", policyVersion := "1.0.0",
        configHash := "\x7b\x7d", files := [("a", "y"), ("B", "x")] } }

/-- Witness for C3's amended theorem at a concrete mixed-case render. -/
theorem render_paths_sorted_witness :
    resC3.files.map Prod.fst = resC3.manifest.files.map Prod.fst ∧
    List.Sorted locLe (resC3.files.map Prod.fst) ∧
    (resC3.files.map Prod.fst).insertionSort locLe = resC3.files.map Prod.fst ∧
    (resC3.manifest.files.map Prod.fst).insertionSort locLe
      = resC3.manifest.files.map Prod.fst :=
  render_paths_sorted (show render [] [] [("B", "x".data), ("a", "y".data)] = .ok resC3 by decide)

/-! ## C6: line-ending normalization -/

theorem cr_not_mem_normalize (c : Content) : '\r' ∉ normalizeLineEndings c := by
  unfold normalizeLineEndings
  intro hmem
  obtain ⟨y, _, hy⟩ := List.mem_map.mp hmem
  by_cases h : y = '\r'
  · rw [if_pos h] at hy
    cases hy
  · rw [if_neg h] at hy
    exact h hy

/-- C6: every byte buffer in a successful render's file map has been
normalized (every CRLF and every lone CR replaced by LF), so no returned
content contains a carriage-return character, and each manifest hash is
computed from exactly those normalized bytes. -/
theorem render_no_carriage_return {registry : Registry} {config : ConfigObj}
    {existingFiles : FileMap} {res : RenderResult}
    (h : render registry config existingFiles = .ok res) :
    (∀ pc ∈ res.files, '\r' ∉ pc.2) ∧
    res.manifest.files = res.files.map (fun pc => (pc.1, computeSha256 pc.2)) := by
  obtain ⟨ordered, _, hfiles, _, hman⟩ := render_ok_elim h
  refine ⟨?_, hman⟩
  intro pc hpc
  rw [hfiles] at hpc
  have hpc2 : pc ∈ normalizedOf (runPhases (groupPluginsByPhase ordered) existingFiles).1 :=
    (List.perm_insertionSort fileLe _).mem_iff.mp hpc
  obtain ⟨e, _, he⟩ := List.mem_map.mp hpc2
  have : pc.2 = normalizeLineEndings e.2 := by rw [← he]
  rw [this]
  exact cr_not_mem_normalize e.2

/-- Concrete successful render (seed contains CRLF and a lone CR) used to
witness C6. -/
def resC6 : RenderResult :=
  { files := [("a.txt", ['x', '\n', '\n', 'y'])]
    manifest :=
      { generatorVersion := "0.1.0", policyVersion := "1.0.0",
        configHash := "\x7b\x7d", files := [("a.txt", "x\n\ny")] } }

/-- Witness for C6 at a concrete render whose seed content holds `\r\n`
and a lone `\r`. -/
theorem render_no_carriage_return_witness :
    (∀ pc ∈ resC6.files, '\r' ∉ pc.2) ∧
    resC6.manifest.files = resC6.files.map (fun pc => (pc.1, computeSha256 pc.2)) :=
  render_no_carriage_return
    (show render [] [] [("a.txt", ['x', '\r', '\n', '\r', 'y'])] = .ok resC6 by decide)

/-! ## C10: seeded files are emitted as output -/

/-- C10: a path seeded through `existingFiles` whose content no plugin
overwrites (the final context still holds the seeded content) appears in
the returned file map with its content normalized, and in the manifest
with the hash of those normalized bytes — exactly like plugin-generated
files. -/
theorem render_seeded_file_emitted {registry : Registry} {config : ConfigObj}
    {existingFiles : FileMap} {res : RenderResult} (ordered : List Plugin)
    (p : String) (c : Content)
    (h : render registry config existingFiles = .ok res)
    (hord : resolvePluginOrder (applicableOf registry config) registry = .ok ordered)
    (_hseed : getAssoc existingFiles p = some c)
    (hkept : getAssoc (runPhases (groupPluginsByPhase ordered) existingFiles).1 p = some c) :
    (p, normalizeLineEndings c) ∈ res.files ∧
    (p, computeSha256 (normalizeLineEndings c)) ∈ res.manifest.files := by
  obtain ⟨ordered2, hord2, hfiles, _, hman⟩ := render_ok_elim h
  have hsame : ordered2 = ordered := by
    have := hord2.symm.trans hord
    cases this
    rfl
  subst hsame
  have hmem : (p, c) ∈ (runPhases (groupPluginsByPhase ordered2) existingFiles).1 :=
    mem_of_getAssoc_eq_some hkept
  have hnorm : (p, normalizeLineEndings c)
      ∈ normalizedOf (runPhases (groupPluginsByPhase ordered2) existingFiles).1 :=
    List.mem_map.mpr ⟨(p, c), hmem, rfl⟩
  have hfmem : (p, normalizeLineEndings c) ∈ res.files := by
    rw [hfiles]
    exact (List.perm_insertionSort fileLe _).mem_iff.mpr hnorm
  refine ⟨hfmem, ?_⟩
  rw [hman]
  exact List.mem_map.mpr ⟨(p, normalizeLineEndings c), hfmem, rfl⟩

/-- Concrete successful render for C10's witness: one seeded file, no
plugins. -/
def resC10 : RenderResult :=
  { files := [("keep.txt", ['k', '\n'])]
    manifest :=
      { generatorVersion := "0.1.0", policyVersion := "1.0.0",
        configHash := "\x7b\x7d", files := [("keep.txt", "k\n")] } }

/-- Witness for C10: a seeded file untouched by any plugin (empty
registry) appears normalized in the file map and hashed in the
manifest. -/
theorem render_seeded_file_emitted_witness :
    ("keep.txt", normalizeLineEndings ['k', '\r']) ∈ resC10.files ∧
    ("keep.txt", computeSha256 (normalizeLineEndings ['k', '\r'])) ∈ resC10.manifest.files :=
  render_seeded_file_emitted [] "keep.txt" ['k', '\r']
    (show render [] [] [("keep.txt", ['k', '\r'])] = .ok resC10 by decide)
    (by rfl) (by decide) (by decide)

/-! ## Code-unit order lemmas -/

theorem charCodes_inj : ∀ l1 l2 : List Char, l1.map Char.toNat = l2.map Char.toNat → l1 = l2
  | [], [], _ => rfl
  | [], _ :: _, h => by simp at h
  | _ :: _, [], h => by simp at h
  | c :: cs, d :: ds, h => by
    simp only [List.map_cons, List.cons.injEq] at h
    have hcd : c = d := by
      rw [← Char.ofNat_toNat c, ← Char.ofNat_toNat d, h.1]
    exact hcd ▸ congrArg (c :: ·) (charCodes_inj cs ds h.2)

theorem codeLe_total (a b : String) : codeLe a b ∨ codeLe b a := by
  unfold codeLe
  by_cases h : lexCmpNat (a.data.map Char.toNat) (b.data.map Char.toNat) = .gt
  · right
    rw [lexCmpNat_swap, h]
    simp [Ordering.swap]
  · exact Or.inl h

theorem codeLe_trans {a b c : String} (hab : codeLe a b) (hbc : codeLe b c) : codeLe a c := by
  unfold codeLe at hab hbc ⊢
  cases h1 : lexCmpNat (a.data.map Char.toNat) (b.data.map Char.toNat) with
  | gt => exact absurd h1 hab
  | eq =>
    rw [lexCmpNat_eq_iff] at h1
    rw [h1]
    exact hbc
  | lt =>
    cases h2 : lexCmpNat (b.data.map Char.toNat) (c.data.map Char.toNat) with
    | gt => exact absurd h2 hbc
    | eq =>
      rw [lexCmpNat_eq_iff] at h2
      rw [← h2]
      simp [h1]
    | lt => simp [lexCmpNat_lt_trans h1 h2]

theorem codeLe_antisymm {a b : String} (hab : codeLe a b) (hba : codeLe b a) : a = b := by
  unfold codeLe at hab hba
  rw [lexCmpNat_swap] at hba
  cases h : lexCmpNat (a.data.map Char.toNat) (b.data.map Char.toNat) with
  | gt => exact absurd h hab
  | lt =>
    rw [h] at hba
    simp [Ordering.swap] at hba
  | eq =>
    rw [lexCmpNat_eq_iff] at h
    exact String.ext (charCodes_inj _ _ h)

instance : IsTotal String codeLe := ⟨codeLe_total⟩

instance : IsTrans String codeLe := ⟨fun _ _ _ => codeLe_trans⟩

instance : IsAntisymm String codeLe := ⟨fun _ _ => codeLe_antisymm⟩

/-! ## Injectivity of the canonical config serialization -/

theorem sepSplit {sep : Char} :
    ∀ {p q r1 r2 : List Char}, sep ∉ p → sep ∉ q →
      p ++ sep :: r1 = q ++ sep :: r2 → p = q ∧ r1 = r2 := by
  intro p
  induction p with
  | nil =>
    intro q r1 r2 _ hq h
    cases q with
    | nil =>
      simp at h
      exact ⟨rfl, h⟩
    | cons x xs =>
      simp only [List.nil_append, List.cons_append, List.cons.injEq] at h
      exact absurd (h.1 ▸ List.mem_cons_self x xs) hq
  | cons c cs ih =>
    intro q r1 r2 hp hq h
    cases q with
    | nil =>
      simp only [List.cons_append, List.nil_append, List.cons.injEq] at h
      exact absurd (h.1.symm ▸ List.mem_cons_self c cs) hp
    | cons x xs =>
      simp only [List.cons_append, List.cons.injEq] at h
      obtain ⟨rfl, h2⟩ := h
      have := ih (fun hm => hp (List.mem_cons_of_mem _ hm))
        (fun hm => hq (List.mem_cons_of_mem _ hm)) h2
      exact ⟨by rw [this.1], this.2⟩

theorem jsonEntry_ne_nil (k v : String) : jsonEntry k v ≠ [] := by
  unfold jsonEntry
  exact List.cons_ne_nil _ _

theorem comma_not_mem_jsonEntry {k v : String} (hk : goodStr k) (hv : goodStr v) :
    ',' ∉ jsonEntry k v := by
  unfold jsonEntry
  intro h
  have hcase : ',' = '"' ∨ ',' ∈ k.data ∨ ',' = ':' ∨ ',' ∈ v.data := by
    simp only [List.mem_cons, List.mem_append, List.mem_singleton] at h
    tauto
  rcases hcase with h | h | h | h
  · cases h
  · exact hk.1 h
  · cases h
  · exact hv.1 h

theorem jsonEntry_inj {k1 v1 k2 v2 : String} (hk1 : goodStr k1) (_hv1 : goodStr v1)
    (hk2 : goodStr k2) (_hv2 : goodStr v2)
    (h : jsonEntry k1 v1 = jsonEntry k2 v2) : k1 = k2 ∧ v1 = v2 := by
  unfold jsonEntry at h
  simp only [List.cons_append, List.append_assoc, List.cons.injEq, true_and] at h
  obtain ⟨hkeys, hrest⟩ := sepSplit hk1.2 hk2.2 h
  simp only [List.cons.injEq, true_and] at hrest
  exact ⟨String.ext hkeys, String.ext ((List.append_left_inj _).mp hrest)⟩

theorem joinComma_inj :
    ∀ ps qs : List (List Char),
      (∀ p ∈ ps, p ≠ [] ∧ ',' ∉ p) → (∀ q ∈ qs, q ≠ [] ∧ ',' ∉ q) →
      joinComma ps = joinComma qs → ps = qs
  | [], [], _, _, _ => rfl
  | [], [q], _, hq, h => by
    simp only [joinComma] at h
    exact absurd h.symm (hq q (List.mem_cons_self q [])).1
  | [], q :: q2 :: qs, _, _, h => by
    simp only [joinComma] at h
    cases hq : q with
    | nil => rw [hq] at h; cases h
    | cons x xs => rw [hq] at h; cases h
  | [p], [], hp, _, h => by
    simp only [joinComma] at h
    exact absurd h (hp p (List.mem_cons_self p [])).1
  | p :: p2 :: ps, [], _, _, h => by
    simp only [joinComma] at h
    cases hp : p with
    | nil => rw [hp] at h; cases h
    | cons x xs => rw [hp] at h; cases h
  | [p], [q], _, _, h => by
    simp only [joinComma] at h
    rw [h]
  | [p], q :: q2 :: qs, hp, _, h => by
    simp only [joinComma] at h
    have : ',' ∈ p := by
      rw [h]
      exact List.mem_append.mpr (Or.inr (List.mem_cons_self _ _))
    exact absurd this (hp p (List.mem_cons_self p [])).2
  | p :: p2 :: ps, [q], _, hq, h => by
    simp only [joinComma] at h
    have : ',' ∈ q := by
      rw [← h]
      exact List.mem_append.mpr (Or.inr (List.mem_cons_self _ _))
    exact absurd this (hq q (List.mem_cons_self q [])).2
  | p :: p2 :: ps, q :: q2 :: qs, hp, hq, h => by
    simp only [joinComma] at h
    obtain ⟨h1, h2⟩ := sepSplit (hp p (List.mem_cons_self _ _)).2
      (hq q (List.mem_cons_self _ _)).2 h
    have := joinComma_inj (p2 :: ps) (q2 :: qs)
      (fun x hx => hp x (List.mem_cons_of_mem _ hx))
      (fun x hx => hq x (List.mem_cons_of_mem _ hx)) h2
    rw [h1, this]

theorem mapJsonEntry_inj :
    ∀ l1 l2 : List (String × String),
      (∀ e ∈ l1, goodStr e.1 ∧ goodStr e.2) → (∀ e ∈ l2, goodStr e.1 ∧ goodStr e.2) →
      l1.map (fun e => jsonEntry e.1 e.2) = l2.map (fun e => jsonEntry e.1 e.2) →
      l1 = l2
  | [], [], _, _, _ => rfl
  | [], _ :: _, _, _, h => by simp at h
  | _ :: _, [], _, _, h => by simp at h
  | e1 :: l1, e2 :: l2, h1, h2, h => by
    simp only [List.map_cons, List.cons.injEq] at h
    have he1 := h1 e1 (List.mem_cons_self _ _)
    have he2 := h2 e2 (List.mem_cons_self _ _)
    obtain ⟨hk, hv⟩ := jsonEntry_inj he1.1 he1.2 he2.1 he2.2 h.1
    have := mapJsonEntry_inj l1 l2
      (fun x hx => h1 x (List.mem_cons_of_mem _ hx))
      (fun x hx => h2 x (List.mem_cons_of_mem _ hx)) h.2
    rw [this, Prod.ext_iff.mpr ⟨hk, hv⟩]

theorem stringify_eq_canon (o : ConfigObj) :
    jsonStringifySorted o =
      ⟨lbrace :: joinComma ((canonEntries o).map (fun e => jsonEntry e.1 e.2)) ++ [rbrace]⟩ := by
  unfold jsonStringifySorted canonEntries
  have hcomp :
      ∀ l : List String,
        l.filterMap (fun k => (getAssoc o k).map (fun v => jsonEntry k v)) =
          (l.filterMap (fun k => (getAssoc o k).map (fun v => (k, v)))).map
            (fun e => jsonEntry e.1 e.2) := by
    intro l
    induction l with
    | nil => rfl
    | cons k l ih =>
      simp only [List.filterMap_cons]
      cases getAssoc o k with
      | none => exact ih
      | some v => simp [ih]
  rw [hcomp]

theorem mem_canonEntries {o : ConfigObj} {k v : String} :
    (k, v) ∈ canonEntries o ↔ getAssoc o k = some v := by
  constructor
  · intro h
    obtain ⟨k2, _, hk2⟩ := List.mem_filterMap.mp h
    cases hg : getAssoc o k2 with
    | none => rw [hg] at hk2; cases hk2
    | some v2 =>
      rw [hg] at hk2
      have hk2b : (k2, v2) = (k, v) := by simpa using hk2
      obtain ⟨h1, h2⟩ := Prod.mk.injEq .. ▸ hk2b
      rw [← h1, hg, h2]
  · intro h
    refine List.mem_filterMap.mpr ⟨k, ?_, by rw [h]; rfl⟩
    have : k ∈ objKeys o := (getAssoc_isSome_iff o k).mp (by rw [h]; rfl)
    exact (List.perm_insertionSort codeLe (objKeys o)).mem_iff.mpr this

theorem canonEntries_sub {o : ConfigObj} : ∀ e ∈ canonEntries o, e ∈ o := by
  intro e he
  obtain ⟨k2, _, hk2⟩ := List.mem_filterMap.mp he
  cases hg : getAssoc o k2 with
  | none => rw [hg] at hk2; cases hk2
  | some v2 =>
    rw [hg] at hk2
    have hk2b : (k2, v2) = e := by simpa using hk2
    rw [← hk2b]
    exact mem_of_getAssoc_eq_some hg

theorem validConfig_goodStr {o : ConfigObj} (hv : validConfig o) :
    ∀ e ∈ o, goodStr e.1 ∧ goodStr e.2 := by
  intro e he
  have hval := hv.2.2 e he
  unfold enumValues at hval
  cases hg : getAssoc ENUMS e.1 with
  | none =>
    rw [hg] at hval
    simp at hval
  | some vs =>
    rw [hg] at hval
    simp only [Option.getD_some] at hval
    have hmem : (e.1, vs) ∈ ENUMS := mem_of_getAssoc_eq_some hg
    have hall : ∀ en ∈ ENUMS, goodStr en.1 ∧ ∀ v ∈ en.2, goodStr v := by decide
    exact ⟨(hall _ hmem).1, (hall _ hmem).2 _ hval⟩

/-! ## C7: the config hash is canonical and injective -/

/-- C7: for valid configs (the output type of `validateProjectConfig`: the
schema's keys with enum string values), the config hash depends on the
config only through its key-to-value mapping — structurally equal configs
hash identically regardless of key insertion order, and configs differing
in any field hash differently. -/
theorem configHash_canonical_injective :
    ∀ o1 o2 : ConfigObj, validConfig o1 → validConfig o2 →
      (computeConfigHash o1 = computeConfigHash o2 ↔
        ∀ k, getAssoc o1 k = getAssoc o2 k) := by
  intro o1 o2 hv1 hv2
  constructor
  · intro hhash
    have hgood1 : ∀ e ∈ (canonEntries o1).map (fun e => jsonEntry e.1 e.2),
        e ≠ [] ∧ ',' ∉ e := by
      intro e he
      obtain ⟨f, hf, hfe⟩ := List.mem_map.mp he
      have hg := validConfig_goodStr hv1 f (canonEntries_sub f hf)
      exact hfe ▸ ⟨jsonEntry_ne_nil f.1 f.2, comma_not_mem_jsonEntry hg.1 hg.2⟩
    have hgood2 : ∀ e ∈ (canonEntries o2).map (fun e => jsonEntry e.1 e.2),
        e ≠ [] ∧ ',' ∉ e := by
      intro e he
      obtain ⟨f, hf, hfe⟩ := List.mem_map.mp he
      have hg := validConfig_goodStr hv2 f (canonEntries_sub f hf)
      exact hfe ▸ ⟨jsonEntry_ne_nil f.1 f.2, comma_not_mem_jsonEntry hg.1 hg.2⟩
    have hdata : lbrace :: joinComma ((canonEntries o1).map (fun e => jsonEntry e.1 e.2))
          ++ [rbrace]
        = lbrace :: joinComma ((canonEntries o2).map (fun e => jsonEntry e.1 e.2))
          ++ [rbrace] := by
      have := hhash
      rw [show computeConfigHash o1 = jsonStringifySorted o1 from rfl,
        show computeConfigHash o2 = jsonStringifySorted o2 from rfl,
        stringify_eq_canon, stringify_eq_canon] at this
      exact congrArg String.data this
    simp only [List.cons_append, List.cons.injEq, true_and] at hdata
    have hjoin := (List.append_left_inj _).mp hdata
    have hmaps := joinComma_inj _ _ hgood1 hgood2 hjoin
    have hcanon : canonEntries o1 = canonEntries o2 :=
      mapJsonEntry_inj _ _
        (fun e he => validConfig_goodStr hv1 e (canonEntries_sub e he))
        (fun e he => validConfig_goodStr hv2 e (canonEntries_sub e he)) hmaps
    intro k
    cases hg1 : getAssoc o1 k with
    | some v =>
      have : (k, v) ∈ canonEntries o2 := hcanon ▸ mem_canonEntries.mpr hg1
      exact (mem_canonEntries.mp this).symm
    | none =>
      cases hg2 : getAssoc o2 k with
      | none => rfl
      | some v =>
        have : (k, v) ∈ canonEntries o1 := hcanon ▸ mem_canonEntries.mpr hg2
        rw [mem_canonEntries.mp this] at hg1
        cases hg1
  · intro hmap
    have hkeys : ∀ k, k ∈ objKeys o1 ↔ k ∈ objKeys o2 := by
      intro k
      simp only [objKeys]
      rw [← getAssoc_isSome_iff, ← getAssoc_isSome_iff, hmap k]
    have hperm : (objKeys o1).Perm (objKeys o2) :=
      (List.perm_ext_iff_of_nodup hv1.1 hv2.1).mpr hkeys
    have hsortKeys : jsSortStrings (objKeys o1) = jsSortStrings (objKeys o2) :=
      List.eq_of_perm_of_sorted
        (((List.perm_insertionSort codeLe _).trans hperm).trans
          (List.perm_insertionSort codeLe _).symm)
        (List.sorted_insertionSort codeLe _) (List.sorted_insertionSort codeLe _)
    have hcanon : canonEntries o1 = canonEntries o2 := by
      unfold canonEntries
      rw [hsortKeys]
      exact List.filterMap_congr (fun k _ => by rw [hmap k])
    rw [show computeConfigHash o1 = jsonStringifySorted o1 from rfl,
      show computeConfigHash o2 = jsonStringifySorted o2 from rfl,
      stringify_eq_canon, stringify_eq_canon, hcanon]

/-- A valid config in one key order. -/
def cfg1 : ConfigObj :=
  [("projectType", "nextjs"), ("packageManager", "npm"), ("strictnessPreset", "startup"),
   ("testingLevel", "none"), ("billingProvider", "none"), ("analyticsProvider", "none"),
   ("observability", "none")]

/-- The same mapping as `cfg1` with a different key insertion order. -/
def cfg2 : ConfigObj :=
  [("observability", "none"), ("projectType", "nextjs"), ("packageManager", "npm"),
   ("strictnessPreset", "startup"), ("testingLevel", "none"), ("billingProvider", "none"),
   ("analyticsProvider", "none")]

/-- `cfg1` with one field changed. -/
def cfg3 : ConfigObj :=
  [("projectType", "expo-eas"), ("packageManager", "npm"), ("strictnessPreset", "startup"),
   ("testingLevel", "none"), ("billingProvider", "none"), ("analyticsProvider", "none"),
   ("observability", "none")]

/-- Witness for C7: reordered structurally equal configs hash identically,
and a config differing in one field hashes differently. -/
theorem configHash_canonical_injective_witness :
    computeConfigHash cfg1 = computeConfigHash cfg2 ∧
    computeConfigHash cfg1 ≠ computeConfigHash cfg3 := by
  constructor
  · exact (configHash_canonical_injective cfg1 cfg2 (by decide) (by decide)).mpr (by
      intro k
      show getAssoc cfg1 k = getAssoc cfg2 k
      by_cases h1 : k = "projectType"
      · subst h1; decide
      · by_cases h2 : k = "packageManager"
        · subst h2; decide
        · by_cases h3 : k = "strictnessPreset"
          · subst h3; decide
          · by_cases h4 : k = "testingLevel"
            · subst h4; decide
            · by_cases h5 : k = "billingProvider"
              · subst h5; decide
              · by_cases h6 : k = "analyticsProvider"
                · subst h6; decide
                · by_cases h7 : k = "observability"
                  · subst h7; decide
                  · simp [cfg1, cfg2, getAssoc, Ne.symm h1, Ne.symm h2, Ne.symm h3,
                      Ne.symm h4, Ne.symm h5, Ne.symm h6, Ne.symm h7])
  · intro h
    have := (configHash_canonical_injective cfg1 cfg3 (by decide) (by decide)).mp h "projectType"
    rw [show getAssoc cfg1 "projectType" = some "nextjs" from by decide,
      show getAssoc cfg3 "projectType" = some "expo-eas" from by decide] at this
    exact absurd this (by decide)

/-! ## Fuel accounting and order lemmas for resolvePluginOrder -/

theorem filter_imp_length_le {α : Type} {p q : α → Bool} (h : ∀ x, p x = true → q x = true) :
    ∀ l : List α, (l.filter p).length ≤ (l.filter q).length := by
  intro l
  induction l with
  | nil => simp
  | cons a l ih =>
    by_cases hp : p a = true
    · rw [List.filter_cons_of_pos hp, List.filter_cons_of_pos (h a hp)]
      simpa using ih
    · rw [List.filter_cons_of_neg (by simpa using hp)]
      by_cases hq : q a = true
      · rw [List.filter_cons_of_pos hq]
        exact ih.trans (Nat.le_succ _)
      · rw [List.filter_cons_of_neg (by simpa using hq)]
        exact ih

theorem regCount_lt {registry : Registry} {visiting : List String} {pid : String}
    (hmem : pid ∈ registry.map Prod.fst) (hnv : pid ∉ visiting) :
    regCount registry (visiting ++ [pid]) < regCount registry visiting := by
  unfold regCount
  have hgen :
      ∀ l : List String, pid ∈ l →
        (l.filter (fun k => decide (k ∉ visiting ++ [pid]))).length <
          (l.filter (fun k => decide (k ∉ visiting))).length := by
    intro l
    induction l with
    | nil => simp
    | cons a l ih =>
      intro hal
      have himp : ∀ x : String,
          decide (x ∉ visiting ++ [pid]) = true → decide (x ∉ visiting) = true := by
        intro x hx
        simp only [decide_eq_true_eq, List.mem_append] at hx ⊢
        exact fun hv => hx (Or.inl hv)
      by_cases hap : a = pid
      · subst hap
        rw [List.filter_cons_of_neg (by simp),
          List.filter_cons_of_pos (by simp [hnv])]
        exact Nat.lt_succ_of_le (filter_imp_length_le himp l)
      · rcases List.mem_cons.mp hal with h | h
        · exact absurd h.symm hap
        · by_cases h1 : a ∈ visiting
          · rw [List.filter_cons_of_neg (by simp [h1]),
              List.filter_cons_of_neg (by simp [h1])]
            exact ih h
          · by_cases h2 : a ∈ visiting ++ [pid]
            · rw [List.filter_cons_of_neg (by simp [h2]),
                List.filter_cons_of_pos (by simp [h1])]
              simpa using Nat.lt_succ_of_lt (ih h)
            · rw [List.filter_cons_of_pos (by simp [h2]),
                List.filter_cons_of_pos (by simp [h1])]
              simpa using ih h
  exact hgen _ hmem

theorem regCount_le_length (registry : Registry) (visiting : List String) :
    regCount registry visiting ≤ registry.length := by
  unfold regCount
  calc ((registry.map Prod.fst).filter _).length
      ≤ (registry.map Prod.fst).length := List.length_filter_le _ _
    _ = registry.length := List.length_map _ _

theorem topoOK_nil : TopoOK [] := by
  intro i hi
  simp at hi

theorem topoOK_append_one {l : List Plugin} {p : Plugin} (h : TopoOK l)
    (hdeps : ∀ d ∈ p.dependencies, d ∈ l.map Plugin.id) : TopoOK (l ++ [p]) := by
  intro i hi d hd
  rw [List.length_append, List.length_singleton] at hi
  by_cases hil : i < l.length
  · rw [List.getElem_append_left hil] at hd
    obtain ⟨j, hj, hji, hjd⟩ := h i hil d hd
    exact ⟨j, by rw [List.length_append]; omega, hji,
      by rw [List.getElem_append_left hj]; exact hjd⟩
  · have hieq : i = l.length := by omega
    subst hieq
    rw [List.getElem_append_right (Nat.le_refl _)] at hd
    simp only [Nat.sub_self, List.getElem_cons_zero] at hd
    obtain ⟨j, hj, hjd⟩ := List.mem_iff_getElem.mp (hdeps d hd)
    rw [List.length_map] at hj
    refine ⟨j, by rw [List.length_append]; omega, hj, ?_⟩
    rw [List.getElem_append_left hj]
    rw [List.getElem_map] at hjd
    exact hjd

theorem sorted_perm_eq {α : Type} {r : α → α → Prop} :
    ∀ {l1 l2 : List α}, l1.Perm l2 → List.Sorted r l1 → List.Sorted r l2 →
      (∀ a ∈ l1, ∀ b ∈ l2, r a b → r b a → a = b) → l1 = l2
  | [], [], _, _, _, _ => rfl
  | [], b :: l2, hp, _, _, _ => by cases hp.symm.eq_nil
  | a :: l1, [], hp, _, _, _ => by cases hp.eq_nil
  | a :: l1, b :: l2, hp, hs1, hs2, hanti => by
    have hab : a = b := by
      have hamem : a ∈ b :: l2 := hp.mem_iff.mp (List.mem_cons_self a l1)
      have hbmem : b ∈ a :: l1 := hp.mem_iff.mpr (List.mem_cons_self b l2)
      rcases List.mem_cons.mp hamem with h | h
      · exact h
      · rcases List.mem_cons.mp hbmem with h2 | h2
        · exact h2.symm
        · have hba : r b a := (List.sorted_cons.mp hs2).1 a h
          have hab2 : r a b := (List.sorted_cons.mp hs1).1 b h2
          exact hanti a (List.mem_cons_self a l1) b (List.mem_cons_self b l2) hab2 hba
    subst hab
    have htail := sorted_perm_eq hp.cons_inv (List.sorted_cons.mp hs1).2
      (List.sorted_cons.mp hs2).2
      (fun x hx y hy => hanti x (List.mem_cons_of_mem _ hx) y (List.mem_cons_of_mem _ hy))
    rw [htail]

theorem exBindOk {ε α β : Type} (a : α) (f : α → Except ε β) :
    (Except.ok a >>= f) = f a := rfl

/-- The depth-first visitation of `resolvePluginOrder` on a well-formed
registry: with enough fuel it succeeds, restores `visiting`, only appends
to the output, keeps the output duplicate-free and topologically ordered,
appends only plugins of rank at most the argument's, and ensures the
argument ends up in the output. -/
theorem visitOrder_spec {registry : Registry} {rank : String → Nat}
    (hwf : WellFormedRegistry registry rank) :
    ∀ (fuel : Nat) (pid : String) (st : VisitState),
      regCount registry st.visiting < fuel →
      (Registry.get registry pid).isSome →
      (∀ v ∈ st.visiting, rank pid < rank v) →
      st.visited = st.sorted.map Plugin.id →
      (st.sorted.map Plugin.id).Nodup →
      TopoOK st.sorted →
      ∃ ext,
        visitOrder registry fuel pid st =
          .ok { sorted := st.sorted ++ ext,
                visited := (st.sorted ++ ext).map Plugin.id,
                visiting := st.visiting } ∧
        ((st.sorted ++ ext).map Plugin.id).Nodup ∧
        TopoOK (st.sorted ++ ext) ∧
        (∀ x ∈ ext.map Plugin.id, rank x ≤ rank pid) ∧
        pid ∈ (st.sorted ++ ext).map Plugin.id := by
  intro fuel
  induction fuel with
  | zero =>
    intro pid st hfuel
    exact absurd hfuel (Nat.not_lt_zero _)
  | succ n ih =>
    intro pid st hfuel hreg hchain hinv hnd htopo
    obtain ⟨sorted0, visited0, visiting0⟩ := st
    simp only at hfuel hchain hinv hnd htopo
    have hpidnv : pid ∉ visiting0 := fun hmem => absurd (hchain pid hmem) (lt_irrefl _)
    simp only [visitOrder]
    rw [if_neg hpidnv]
    by_cases hpv : pid ∈ visited0
    · rw [if_pos hpv]
      refine ⟨[], ?_, by simpa using hnd, by simpa using htopo, by simp, ?_⟩
      · simp [hinv]
      · rw [List.append_nil]
        exact hinv ▸ hpv
    · rw [if_neg hpv]
      obtain ⟨plugin, hplugin⟩ := Option.isSome_iff_exists.mp hreg
      rw [hplugin]
      have hpmem : (pid, plugin) ∈ registry := mem_of_getAssoc_eq_some hplugin
      have hpid : plugin.id = pid := hwf.1 _ hpmem
      have hdepsreg : ∀ d ∈ plugin.dependencies, (Registry.get registry d).isSome :=
        fun d hd => hwf.2.1 _ hpmem d hd
      have hdepsrank : ∀ d ∈ plugin.dependencies, rank d < rank pid :=
        fun d hd => hpid ▸ hwf.2.2 _ hpmem d hd
      have hsortmem : ∀ d ∈ jsSortStrings plugin.dependencies, d ∈ plugin.dependencies :=
        fun d hd => (List.perm_insertionSort codeLe _).mem_iff.mp hd
      have hfuel2 : regCount registry (visiting0 ++ [pid]) < n := by
        have hk : pid ∈ registry.map Prod.fst := List.mem_map.mpr ⟨(pid, plugin), hpmem, rfl⟩
        have := regCount_lt hk hpidnv
        omega
      have hfold : ∀ (ds : List String) (stA : VisitState),
          (∀ d ∈ ds, d ∈ plugin.dependencies) →
          stA.visiting = visiting0 ++ [pid] →
          stA.visited = stA.sorted.map Plugin.id →
          (stA.sorted.map Plugin.id).Nodup →
          TopoOK stA.sorted →
          ∃ ext2,
            ds.foldlM (fun s d => visitOrder registry n d s) stA =
              .ok { sorted := stA.sorted ++ ext2,
                    visited := (stA.sorted ++ ext2).map Plugin.id,
                    visiting := visiting0 ++ [pid] } ∧
            ((stA.sorted ++ ext2).map Plugin.id).Nodup ∧
            TopoOK (stA.sorted ++ ext2) ∧
            (∀ x ∈ ext2.map Plugin.id, rank x < rank pid) ∧
            (∀ d ∈ ds, d ∈ (stA.sorted ++ ext2).map Plugin.id) := by
        intro ds
        induction ds with
        | nil =>
          intro stA _ hv hinvA hndA htopoA
          obtain ⟨sA, vA, gA⟩ := stA
          simp only at hv hinvA hndA htopoA
          subst hv
          subst hinvA
          exact ⟨[], by simp only [List.foldlM_nil, List.append_nil]; rfl,
            by simpa using hndA, by simpa using htopoA, by simp, by simp⟩
        | cons d ds ihd =>
          intro stA hds hv hinvA hndA htopoA
          have hd : d ∈ plugin.dependencies := hds d (List.mem_cons_self _ _)
          have hchaind : ∀ v ∈ stA.visiting, rank d < rank v := by
            rw [hv]
            intro v hvm
            rcases List.mem_append.mp hvm with h | h
            · exact (hdepsrank d hd).trans (hchain v h)
            · rw [List.mem_singleton.mp h]
              exact hdepsrank d hd
          have hfueld : regCount registry stA.visiting < n := by
            rw [hv]
            exact hfuel2
          obtain ⟨extd, hokd, hndd, htopod, hrankd, hmemd⟩ :=
            ih d stA hfueld (hdepsreg d hd) hchaind hinvA hndA htopoA
          rw [List.foldlM_cons, hokd, exBindOk]
          have hvA := hv
          obtain ⟨extr, hokr, hndr, htopor, hrankr, hmemr⟩ :=
            ihd { sorted := stA.sorted ++ extd,
                  visited := (stA.sorted ++ extd).map Plugin.id,
                  visiting := visiting0 ++ [pid] }
              (fun x hx => hds x (List.mem_cons_of_mem _ hx)) rfl rfl hndd htopod
          refine ⟨extd ++ extr, ?_, ?_, ?_, ?_, ?_⟩
          · rw [hv, hokr]
            simp [List.append_assoc]
          · simpa [List.append_assoc] using hndr
          · simpa [List.append_assoc] using htopor
          · intro x hx
            rw [List.map_append, List.mem_append] at hx
            rcases hx with hx | hx
            · exact lt_of_le_of_lt (hrankd x hx) (hdepsrank d hd)
            · simpa [List.append_assoc] using hrankr x hx
          · intro x hx
            rcases List.mem_cons.mp hx with rfl | hx
            · rw [← List.append_assoc]
              rw [List.map_append, List.mem_append]
              exact Or.inl hmemd
            · simpa [List.append_assoc] using hmemr x hx
      obtain ⟨ext2, hokF, hndF, htopoF, hrankF, hmemF⟩ :=
        hfold (jsSortStrings plugin.dependencies)
          ⟨sorted0, visited0, visiting0 ++ [pid]⟩ hsortmem rfl hinv hnd htopo
      dsimp only at hokF hndF htopoF hmemF ⊢
      rw [hokF, exBindOk]
      have herase : (visiting0 ++ [pid]).erase pid = visiting0 := by
        rw [List.erase_append_right _ hpidnv]
        simp
      have hnotin : pid ∉ (sorted0 ++ ext2).map Plugin.id := by
        rw [List.map_append, List.mem_append]
        rintro (h | h)
        · exact hpv (hinv ▸ h)
        · exact absurd (hrankF pid h) (lt_irrefl _)
      have hany : ((sorted0 ++ ext2).any fun q => q.id = pid) = false := by
        rw [List.any_eq_false]
        intro q hq
        simp only [decide_eq_true_eq]
        intro hqe
        exact hnotin (hqe ▸ List.mem_map.mpr ⟨q, hq, rfl⟩)
      simp only [herase, hany, Bool.false_eq_true, if_false]
      refine ⟨ext2 ++ [plugin], ?_, ?_, ?_, ?_, ?_⟩
      · rw [← List.append_assoc]
        simp [List.map_append, hpid]
      · rw [← List.append_assoc]
        rw [List.map_append]
        simp only [List.map_cons, List.map_nil]
        rw [List.nodup_append]
        refine ⟨hndF, by simp, ?_⟩
        intro a ha hb
        have hb2 : a = pid := by simpa [hpid] using hb
        exact hnotin (hb2 ▸ ha)
      · rw [← List.append_assoc]
        refine topoOK_append_one htopoF ?_
        intro d hd
        exact hmemF d ((List.perm_insertionSort codeLe _).symm.mem_iff.mp hd)
      · intro x hx
        rw [List.map_append, List.mem_append] at hx
        rcases hx with hx | hx
        · exact le_of_lt (hrankF x hx)
        · simp only [List.map_cons, List.map_nil, List.mem_singleton] at hx
          rw [hx, hpid]
      · rw [← List.append_assoc, List.map_append, List.mem_append]
        right
        simp [hpid]

/-- Every edge of a built dependency graph comes from some plugin of the
input list: its source is that plugin's id and its targets are among that
plugin's declared dependencies. -/
theorem buildGraph_edges_shape (candidates : List Plugin) :
    ∀ e ∈ (buildDependencyGraph candidates).edges,
      ∃ p ∈ candidates, e.1 = p.id ∧ ∀ d ∈ e.2, d ∈ p.dependencies := by
  suffices h : ∀ (l : List Plugin) (g : DependencyGraph),
      (∀ p ∈ l, p ∈ candidates) →
      (∀ e ∈ g.edges, ∃ p ∈ candidates, e.1 = p.id ∧ ∀ d ∈ e.2, d ∈ p.dependencies) →
      ∀ e ∈ (l.foldl
          (fun g p =>
            let g := { g with nodes := addSet g.nodes p.id }
            if p.dependencies.length > 0 then
              let g := { g with edges := setAssoc g.edges p.id (dedupSet p.dependencies) }
              { g with nodes := p.dependencies.foldl addSet g.nodes }
            else g)
          g).edges,
        ∃ p ∈ candidates, e.1 = p.id ∧ ∀ d ∈ e.2, d ∈ p.dependencies by
    exact h candidates ⟨[], []⟩ (fun _ hp => hp) (by simp)
  intro l
  induction l with
  | nil =>
    intro g _ hg
    exact hg
  | cons p l ihl =>
    intro g hsub hg
    simp only [List.foldl_cons]
    refine ihl _ (fun q hq => hsub q (List.mem_cons_of_mem _ hq)) ?_
    intro e he
    by_cases hlen : p.dependencies.length > 0
    · rw [if_pos hlen] at he
      dsimp only at he
      rcases mem_setAssoc he with he | he
      · exact hg e he
      · refine ⟨p, hsub p (List.mem_cons_self _ _), ?_, ?_⟩
        · rw [he]
        · intro d hd
          rw [he] at hd
          exact mem_dedupSet.mp hd
    · rw [if_neg hlen] at he
      exact hg e he

/-- The candidate graph of registered, rank-decreasing plugins is ranked. -/
theorem candidateGraph_ranked {registry : Registry} {rank : String → Nat}
    {candidates : List Plugin} (hwf : WellFormedRegistry registry rank)
    (hcand : ∀ p ∈ candidates, Registry.get registry p.id = some p) :
    RankedGraph (buildDependencyGraph candidates) rank := by
  intro e he d hd
  obtain ⟨p, hp, he1, hdeps⟩ := buildGraph_edges_shape candidates e he
  have hmem : (p.id, p) ∈ registry := mem_of_getAssoc_eq_some (hcand p hp)
  rw [he1]
  exact hwf.2.2 _ hmem d (hdeps d hd)

/-- With every candidate dependency registered, the missing-dependency scan
collects nothing. -/
theorem missingDeps_empty {registry : Registry} (candidates : List Plugin)
    (h : ∀ p ∈ candidates, ∀ d ∈ p.dependencies, (Registry.get registry d).isSome) :
    candidates.foldl
      (fun acc p =>
        acc ++ p.dependencies.filterMap
          (fun d =>
            if (Registry.get registry d).isNone then
              some ("Plugin " ++ p.id ++ " depends on unknown plugin: " ++ d)
            else none))
      [] = [] := by
  have hstep : ∀ p ∈ candidates, p.dependencies.filterMap
      (fun d =>
        if (Registry.get registry d).isNone then
          some ("Plugin " ++ p.id ++ " depends on unknown plugin: " ++ d)
        else none) = [] := by
    intro p hp
    rw [List.filterMap_eq_nil_iff]
    intro d hd
    cases hg : Registry.get registry d with
    | none => exact absurd (h p hp d hd) (by rw [hg]; simp)
    | some v => simp [hg]
  have hgen : ∀ (l : List Plugin) (acc : List String),
      (∀ p ∈ l, p ∈ candidates) →
      l.foldl
        (fun acc p =>
          acc ++ p.dependencies.filterMap
            (fun d =>
              if (Registry.get registry d).isNone then
                some ("Plugin " ++ p.id ++ " depends on unknown plugin: " ++ d)
              else none))
        acc = acc := by
    intro l
    induction l with
    | nil =>
      intro acc _
      rfl
    | cons p l ihl =>
      intro acc hsub
      simp only [List.foldl_cons]
      rw [hstep p (hsub p (List.mem_cons_self _ _)), List.append_nil]
      exact ihl acc (fun q hq => hsub q (List.mem_cons_of_mem _ hq))
  exact hgen candidates [] (fun _ hp => hp)

/-- Folding the top-level visits over any list of registered plugins. -/
theorem topFold_spec {registry : Registry} {rank : String → Nat}
    (hwf : WellFormedRegistry registry rank) :
    ∀ (ps : List Plugin) (st : VisitState),
      (∀ p ∈ ps, (Registry.get registry p.id).isSome) →
      st.visiting = [] →
      st.visited = st.sorted.map Plugin.id →
      (st.sorted.map Plugin.id).Nodup →
      TopoOK st.sorted →
      ∃ ext,
        ps.foldlM (fun s p => visitOrder registry (registry.length + 1) p.id s) st =
          .ok { sorted := st.sorted ++ ext,
                visited := (st.sorted ++ ext).map Plugin.id, visiting := [] } ∧
        ((st.sorted ++ ext).map Plugin.id).Nodup ∧
        TopoOK (st.sorted ++ ext) ∧
        ∀ p ∈ ps, p.id ∈ (st.sorted ++ ext).map Plugin.id := by
  intro ps
  induction ps with
  | nil =>
    intro st _ hv hinv hnd htopo
    obtain ⟨s0, v0, g0⟩ := st
    simp only at hv hinv hnd htopo
    subst hv
    subst hinv
    exact ⟨[], by simp only [List.foldlM_nil, List.append_nil]; rfl,
      by simpa using hnd, by simpa using htopo, by simp⟩
  | cons p ps ihp =>
    intro st hreg hv hinv hnd htopo
    have hfuel : regCount registry st.visiting < registry.length + 1 := by
      exact Nat.lt_succ_of_le (regCount_le_length _ _)
    have hchain : ∀ v ∈ st.visiting, rank p.id < rank v := by
      rw [hv]
      intro v hvm
      cases hvm
    obtain ⟨extp, hokp, hndp, htopop, _, hmemp⟩ :=
      visitOrder_spec hwf (registry.length + 1) p.id st hfuel
        (hreg p (List.mem_cons_self _ _)) hchain hinv hnd htopo
    rw [List.foldlM_cons, hokp, exBindOk]
    obtain ⟨extr, hokr, hndr, htopor, hmemr⟩ :=
      ihp { sorted := st.sorted ++ extp,
            visited := (st.sorted ++ extp).map Plugin.id, visiting := st.visiting }
        (fun q hq => hreg q (List.mem_cons_of_mem _ hq)) hv rfl hndp htopop
    refine ⟨extp ++ extr, ?_, ?_, ?_, ?_⟩
    · rw [hokr]
      simp [List.append_assoc]
    · simpa [List.append_assoc] using hndr
    · simpa [List.append_assoc] using htopor
    · intro q hq
      rcases List.mem_cons.mp hq with rfl | hq
      · rw [← List.append_assoc, List.map_append, List.mem_append]
        exact Or.inl hmemp
      · simpa [List.append_assoc] using hmemr q hq

theorem exPureBind {ε α β : Type} (a : α) (f : α → Except ε β) :
    ((pure a : Except ε α) >>= f) = f a := rfl

/-- On a well-formed registry, `resolvePluginOrder` over self-registered
candidates runs to whatever the visitation fold produces. -/
theorem resolve_ok_eval {registry : Registry} {rank : String → Nat}
    (hwf : WellFormedRegistry registry rank) {cands : List Plugin}
    (hcand : ∀ p ∈ cands, Registry.get registry p.id = some p) {stF : VisitState}
    (hfoldOK : (cands.insertionSort pluginLe).foldlM
        (fun s p => visitOrder registry (registry.length + 1) p.id s)
        (⟨[], [], []⟩ : VisitState) = .ok stF) :
    resolvePluginOrder cands registry = .ok stF.sorted := by
  have hfilter : cands.filter (fun p => (Registry.get registry p.id).isSome) = cands :=
    List.filter_eq_self.mpr (fun p hp => by rw [hcand p hp]; rfl)
  have hcycles : detectCycles (buildDependencyGraph cands) = [] :=
    detectCycles_ranked (candidateGraph_ranked hwf hcand)
  have hmissing := @missingDeps_empty registry cands
    (fun p hp d hd => hwf.2.1 _ (mem_of_getAssoc_eq_some (hcand p hp)) d hd)
  simp only [resolvePluginOrder, hfilter, hcycles, hmissing, ne_eq, not_true_eq_false,
    if_false]
  rw [hfoldOK, exBindOk]
  rfl

/-- When no plugin declares dependencies, the visitation fold appends the
plugins in exactly the order given. -/
theorem topFold_nodeps {registry : Registry} :
    ∀ (ps : List Plugin) (st : VisitState),
      (∀ p ∈ ps, Registry.get registry p.id = some p ∧ p.dependencies = []) →
      st.visiting = [] →
      (∀ p ∈ ps, p.id ∉ st.visited) →
      (ps.map Plugin.id).Nodup →
      st.visited = st.sorted.map Plugin.id →
      ps.foldlM (fun s p => visitOrder registry (registry.length + 1) p.id s) st =
        .ok { sorted := st.sorted ++ ps,
              visited := st.visited ++ ps.map Plugin.id, visiting := [] } := by
  intro ps
  induction ps with
  | nil =>
    intro st _ hv _ _ _
    obtain ⟨s0, v0, g0⟩ := st
    simp only at hv
    subst hv
    simp only [List.foldlM_nil, List.map_nil, List.append_nil]
    rfl
  | cons p ps ihp =>
    intro st hps hv hnv hnd hinv
    obtain ⟨hget, hdeps⟩ := hps p (List.mem_cons_self _ _)
    have hpnv : p.id ∉ st.visiting := by
      rw [hv]
      exact List.not_mem_nil _
    have hpnd : p.id ∉ st.visited := hnv p (List.mem_cons_self _ _)
    rw [List.foldlM_cons]
    have hstep : visitOrder registry (registry.length + 1) p.id st =
        .ok { sorted := st.sorted ++ [p],
              visited := st.visited ++ [p.id], visiting := [] } := by
      simp only [visitOrder]
      rw [if_neg hpnv, if_neg hpnd, hget]
      dsimp only
      rw [hdeps]
      rw [show jsSortStrings [] = ([] : List String) from rfl]
      simp only [List.foldlM_nil]
      rw [exPureBind]
      dsimp only
      have hany : (st.sorted.any fun q => q.id = p.id) = false := by
        rw [List.any_eq_false]
        intro q hq
        simp only [decide_eq_true_eq]
        intro hqe
        exact hpnd (hinv ▸ (hqe ▸ List.mem_map.mpr ⟨q, hq, rfl⟩))
      rw [hv]
      simp [hany]
    rw [hstep, exBindOk]
    have hrec := ihp
      { sorted := st.sorted ++ [p], visited := st.visited ++ [p.id], visiting := [] }
      (fun q hq => hps q (List.mem_cons_of_mem _ hq)) rfl
      (by
        intro q hq
        simp only [List.mem_append, List.mem_singleton]
        rintro (hmem | hqe)
        · exact hnv q (List.mem_cons_of_mem _ hq) hmem
        · rcases List.nodup_cons.mp hnd with ⟨hpn, _⟩
          exact hpn (hqe ▸ List.mem_map.mpr ⟨q, hq, rfl⟩))
      (List.nodup_cons.mp hnd).2
      (by rw [hinv, List.map_append]; rfl)
    rw [hrec]
    simp [List.append_assoc]

/-! ## C5: resolvePluginOrder -/

/-- Plugin `a` (no dependencies) of the spec's A/B example. -/
def pA5 : Plugin :=
  { id := "a", version := "0.1.0", appliesTo := fun _ => true, apply := fun _ => [] }

/-- Plugin `b` (depends on `a`) of the spec's A/B example. -/
def pB5 : Plugin :=
  { id := "b", version := "0.1.0", dependencies := ["a"],
    appliesTo := fun _ => true, apply := fun _ => [] }

/-- Registry holding the A/B example. -/
def regAB5 : Registry := [("a", pA5), ("b", pB5)]

/-- Candidate plugin `a` depending on `d`, for the C5 counterexample. -/
def paC : Plugin :=
  { id := "a", version := "0.1.0", dependencies := ["d"],
    appliesTo := fun _ => true, apply := fun _ => [] }

/-- Independent candidate plugin `c`, for the C5 counterexample. -/
def pcC : Plugin :=
  { id := "c", version := "0.1.0", appliesTo := fun _ => true, apply := fun _ => [] }

/-- Independent candidate plugin `d`, for the C5 counterexample. -/
def pdC : Plugin :=
  { id := "d", version := "0.1.0", appliesTo := fun _ => true, apply := fun _ => [] }

/-- Registry holding the C5 counterexample plugins. -/
def regACD : Registry := [("a", paC), ("c", pcC), ("d", pdC)]

/-- Counterexample to C5 as stated: on the acyclic, fully registered
candidate set `a` (depends on `d`), `c`, `d`, the resolver returns
`[d, a, c]` — the independent plugins `c` and `d` (no ordering constraint
between them, and ids with `c` before `d`) are NOT sorted ascending by id
in the output, because `d` is pulled in early as `a`'s dependency. -/
theorem resolveOrder_independent_not_sorted :
    resolvePluginOrder [paC, pcC, pdC] regACD = .ok [pdC, paC, pcC] ∧
    pcC.id = "c" ∧ pdC.id = "d" ∧
    pcC.dependencies = [] ∧ pdC.dependencies = [] ∧
    codeLe "c" "d" ∧ locLe "c" "d" ∧ "c" ≠ "d" := by
  refine ⟨by rfl, rfl, rfl, rfl, rfl, by decide, by decide, by decide⟩

/-- C5 (amended): on a well-formed registry (entries keyed by their
plugin's id, all dependencies registered, dependency edges admitting a
strict rank, i.e. acyclic) and a candidate list registered as itself,
`resolvePluginOrder` succeeds with a duplicate-free, topologically ordered
output (every dependency of an output plugin names an earlier output
plugin); the output is identical for every permutation of the candidate
list; and when no candidate declares dependencies, a duplicate-free
candidate set comes out exactly sorted ascending by id — in particular the
A/B example always resolves to `[A, B]`.  (In general an output plugin
pulled in as a dependency may precede an unrelated plugin of smaller id;
see the counterexample.) -/
theorem resolveOrder_topological_spec :
    (∀ (registry : Registry) (rank : String → Nat) (candidates : List Plugin),
      WellFormedRegistry registry rank →
      (∀ p ∈ candidates, Registry.get registry p.id = some p) →
      ∃ out,
        resolvePluginOrder candidates registry = .ok out ∧
        (out.map Plugin.id).Nodup ∧
        TopoOK out ∧
        (∀ candidates2, candidates2.Perm candidates →
          resolvePluginOrder candidates2 registry = .ok out) ∧
        ((∀ p ∈ candidates, p.dependencies = []) → (candidates.map Plugin.id).Nodup →
          out = candidates.insertionSort pluginLe)) ∧
    (resolvePluginOrder [pA5, pB5] regAB5 = .ok [pA5, pB5] ∧
     resolvePluginOrder [pB5, pA5] regAB5 = .ok [pA5, pB5]) := by
  constructor
  · intro registry rank candidates hwf hcand
    have hSmem : ∀ p ∈ candidates.insertionSort pluginLe,
        (Registry.get registry p.id).isSome := by
      intro p hp
      rw [hcand p ((List.perm_insertionSort pluginLe candidates).mem_iff.mp hp)]
      rfl
    obtain ⟨ext, hfoldOK, hnd, htopo, _⟩ :=
      topFold_spec hwf (candidates.insertionSort pluginLe) ⟨[], [], []⟩ hSmem rfl rfl
        (by simp) topoOK_nil
    refine ⟨[] ++ ext, resolve_ok_eval hwf hcand hfoldOK, hnd, htopo, ?_, ?_⟩
    · intro cands2 hperm
      have hcand2 : ∀ p ∈ cands2, Registry.get registry p.id = some p :=
        fun p hp => hcand p (hperm.mem_iff.mp hp)
      have hsorteq : cands2.insertionSort pluginLe = candidates.insertionSort pluginLe := by
        refine sorted_perm_eq
          ((List.perm_insertionSort pluginLe cands2).trans
            (hperm.trans (List.perm_insertionSort pluginLe candidates).symm))
          (List.sorted_insertionSort pluginLe cands2)
          (List.sorted_insertionSort pluginLe candidates) ?_
        intro a ha b hb hab hba
        have ha2 : a ∈ cands2 := (List.perm_insertionSort pluginLe cands2).mem_iff.mp ha
        have hb2 : b ∈ candidates := (List.perm_insertionSort pluginLe candidates).mem_iff.mp hb
        have hid : a.id = b.id := locLe_antisymm hab hba
        have hsome : some a = some b := by
          rw [← hcand2 a ha2, hid, hcand b hb2]
        exact Option.some.inj hsome
      exact resolve_ok_eval hwf hcand2 (by rw [hsorteq]; exact hfoldOK)
    · intro hnodeps hndc
      have hSdeps : ∀ p ∈ candidates.insertionSort pluginLe,
          Registry.get registry p.id = some p ∧ p.dependencies = [] := by
        intro p hp
        have hp2 := (List.perm_insertionSort pluginLe candidates).mem_iff.mp hp
        exact ⟨hcand p hp2, hnodeps p hp2⟩
      have hSnodup : ((candidates.insertionSort pluginLe).map Plugin.id).Nodup :=
        (((List.perm_insertionSort pluginLe candidates).map Plugin.id).nodup_iff).mpr hndc
      have h2 := topFold_nodeps (candidates.insertionSort pluginLe) ⟨[], [], []⟩ hSdeps rfl
        (fun p _ => List.not_mem_nil _) hSnodup rfl
      have hok := hfoldOK.symm.trans h2
      injection hok with hrec
      have := congrArg VisitState.sorted hrec
      simpa using this
  · constructor
    · rfl
    · rfl

/-- Witness for C5's amended theorem at the concrete A/B registry with an
explicit ranking. -/
theorem resolveOrder_topological_spec_witness :
    ∃ out,
      resolvePluginOrder [pA5, pB5] regAB5 = .ok out ∧
      (out.map Plugin.id).Nodup ∧
      TopoOK out ∧
      (∀ candidates2, candidates2.Perm [pA5, pB5] →
        resolvePluginOrder candidates2 regAB5 = .ok out) ∧
      ((∀ p ∈ [pA5, pB5], p.dependencies = []) → ([pA5, pB5].map Plugin.id).Nodup →
        out = [pA5, pB5].insertionSort pluginLe) :=
  resolveOrder_topological_spec.1 regAB5 (fun s => if s = "b" then 1 else 0) [pA5, pB5]
    (by decide)
    (by
      intro p hp
      rcases List.mem_cons.mp hp with rfl | hp2
      · rfl
      · rcases List.mem_cons.mp hp2 with rfl | hp3
        · rfl
        · cases hp3)

end Lattice
